import Mathlib

set_option maxHeartbeats 1000000
set_option maxRecDepth 8000

/-!
Shallow embedding of the text-chunking and retrieval-aggregation core of the
urbanemissions repository (`indexer/chunker.py` and `backend/rag.py`).

Strings are modelled as `List Char`; Python's `\s` / `str.strip()` whitespace
is modelled with the ASCII whitespace characters.  All recursive functions are
structural (using an explicit fuel parameter where the Python loop is not
structurally recursive), so every definition evaluates inside the kernel.
-/

/-- ASCII whitespace, as matched by Python's `\s` and stripped by `str.strip()`. -/
def isPySpace (c : Char) : Bool :=
  c == ' ' || c == '\t' || c == '\n' || c == '\r' || c == '\x0b' || c == '\x0c'

/-- Sentence-ending punctuation from the regex `(?<=[.!?])`. -/
def isSentEnd (c : Char) : Bool := c == '.' || c == '!' || c == '?'

/-- The two-character separator `"\n\n"`. -/
def nl2 : List Char := ['\n', '\n']

/-- Python `str.strip()`: remove whitespace from both ends. -/
def pyStrip (l : List Char) : List Char :=
  ((l.dropWhile isPySpace).reverse.dropWhile isPySpace).reverse

/-- Python slice `s[-(n):]`.  Note Python's quirk: for `n = 0` this is `s[0:]`,
the whole string, not the last zero characters. -/
def pyTakeLastNeg (n : Nat) (l : List Char) : List Char :=
  if n = 0 then l else l.drop (l.length - n)

/-- Python slice `s[i:]` for a possibly negative `i` (negative indexes count
from the end, clamped at the start of the string). -/
def pyDropFrom (i : Int) (l : List Char) : List Char :=
  if 0 ≤ i then l.drop i.toNat else l.drop (l.length - (-i).toNat)

/-- The split point of `re.split(r"(?<=[.!?])\s+", ·)`: the previous character
(head of the reversed accumulator) is `.`, `!` or `?` and the current one is
whitespace. -/
def sentBoundary (acc : List Char) (c : Char) : Bool :=
  (match acc with | p :: _ => isSentEnd p | [] => false) && isPySpace c

/-- Scanner for `split_into_sentences` (`re.split(r"(?<=[.!?])\s+", text)`).
The `Bool` flag records whether we are consuming the (greedy) whitespace run
of a separator match. -/
def sentAux : Bool → List Char → List Char → List (List Char)
  | _, acc, [] => [acc.reverse]
  | true, acc, c :: rest =>
      if isPySpace c then sentAux true acc rest else sentAux false [c] rest
  | false, acc, c :: rest =>
      if sentBoundary acc c then acc.reverse :: sentAux true [] rest
      else sentAux false (c :: acc) rest

/-- `split_into_sentences` from `indexer/chunker.py`. -/
def sentSplit (l : List Char) : List (List Char) := sentAux false [] l

/-- Python `" ".join(xs)`. -/
def joinSpace : List (List Char) → List Char
  | [] => []
  | [s] => s
  | s :: rest => s ++ ' ' :: joinSpace rest

/-- Total length of the pieces plus one separator per piece (a bookkeeping
measure used to bound sentence splitting and joining). -/
def wt (xs : List (List Char)) : Nat := (xs.map List.length).sum + xs.length

/-- The sentence walk of the forced-split loop in `chunk_text`: accumulate
sentences into `chunk` until adding the next one would exceed `chunk_size`
(and `chunk` is nonempty).  Returns `none` when the `for` loop runs to
completion (Python's `for`/`else`), i.e. no usable boundary was found. -/
def walkStep (cs : Nat) : List Char → List (List Char) → Option (List Char × List (List Char))
  | _, [] => none
  | chunk, sent :: rest =>
      if cs < chunk.length + sent.length + 1 ∧ chunk ≠ [] then some (chunk, sent :: rest)
      else walkStep cs (if chunk = [] then sent else pyStrip (chunk ++ ' ' :: sent)) rest

/-- The `while len(current) > chunk_size * 1.5` forced-split loop of
`chunk_text` (the comparison `2 * len > 3 * cs` is the exact integer form of
`len > cs * 1.5`).  `fuel` bounds the number of iterations; `current.length + 1`
iterations always suffice when `overlap < chunk_size` (proved below) — the
Python loop does not terminate otherwise on sentence-free buffers. -/
def innerLoop (cs ov : Nat) : Nat → List (List Char) → List Char → List (List Char) × List Char
  | 0, chunks, current => (chunks, current)
  | fuel + 1, chunks, current =>
      if 3 * cs < 2 * current.length then
        match walkStep cs [] (sentSplit current) with
        | some (chunk, remaining) =>
            innerLoop cs ov fuel (chunks ++ [chunk]) (joinSpace remaining)
        | none =>
            innerLoop cs ov fuel (chunks ++ [current.take cs])
              (pyDropFrom ((cs : Int) - (ov : Int)) current)
      else (chunks, current)

/-- Python `text.split("\n\n")`: split on each non-overlapping occurrence of
the separator, scanning left to right, keeping empty pieces. -/
def paraSplit : List Char → List (List Char)
  | [] => [[]]
  | '\n' :: '\n' :: rest => [] :: paraSplit rest
  | c :: rest =>
      match paraSplit rest with
      | [] => [[c]]
      | p :: ps => (c :: p) :: ps

/-- `[p.strip() for p in text.split("\n\n") if p.strip()]`. -/
def paragraphsOf (text : List Char) : List (List Char) :=
  ((paraSplit text).map pyStrip).filter (fun p => p ≠ [])

/-- The overlap carry-over seed computed after finalizing a chunk in
`chunk_text` (lines 36-46): only applied when the finalized buffer is strictly
longer than `overlap`; otherwise the whole buffer is carried unmodified. -/
def overlapSeed (ov : Nat) (cur : List Char) : List Char :=
  if ov < cur.length then
    let overlapText := pyTakeLastNeg ov cur
    let sentences := sentSplit overlapText
    if 1 < sentences.length then joinSpace (sentences.drop 1) else overlapText
  else cur

/-- One iteration of the `for para in paragraphs` loop of `chunk_text`:
the finalize-or-merge step followed by the forced-split `while` loop. -/
def chunkStepPara (cs ov : Nat) (st : List (List Char) × List Char) (para : List Char) :
    List (List Char) × List Char :=
  let step :=
    if st.2 ≠ [] ∧ cs < st.2.length + para.length + 2 then
      (st.1 ++ [st.2], overlapSeed ov st.2 ++ nl2 ++ para)
    else
      (st.1, if st.2 = [] then para else pyStrip (st.2 ++ nl2 ++ para))
  innerLoop cs ov (step.2.length + 1) step.1 step.2

/-- The list `chunks` of `chunk_text` just before the title-prefix/length
filter (the paragraph loop plus the final flush of `current`). -/
def chunkBodiesPre (text : List Char) (cs ov : Nat) : List (List Char) :=
  let st := (paragraphsOf text).foldl (chunkStepPara cs ov) ([], [])
  if st.2 = [] then st.1 else st.1 ++ [st.2]

/-- The retained chunk bodies: stripped, and kept only when at least
`min_chunk_size` long. -/
def chunkBodies (text : List Char) (cs ov mcs : Nat) : List (List Char) :=
  (chunkBodiesPre text cs ov).filterMap (fun ch =>
    let c := pyStrip ch
    if mcs ≤ c.length then some c else none)

/-- `chunk_text(text, title, chunk_size, overlap, min_chunk_size)` from
`indexer/chunker.py`: each retained body is emitted as `f"{title}\n\n{chunk}"`. -/
def chunkText (text title : List Char) (cs ov mcs : Nat) : List (List Char) :=
  (chunkBodiesPre text cs ov).filterMap (fun ch =>
    let c := pyStrip ch
    if mcs ≤ c.length then some (title ++ nl2 ++ c) else none)

/-- `chunk_text` at its default parameters (`800`, `200`, `100`), as called by
`chunk_documents`. -/
def chunkTextDefault (text title : List Char) : List (List Char) :=
  chunkText text title 800 200 100

/-- Length of the longest paragraph of the input. -/
def maxParaLen (text : List Char) : Nat :=
  ((paragraphsOf text).map List.length).foldr max 0

/-- Total length of the paragraphs plus two separator characters each (the
budget consumed from the original text by the processed paragraphs). -/
def gList : List (List Char) → Nat
  | [] => 0
  | p :: rest => p.length + 2 + gList rest

/-! ### `url_to_slug` and `chunk_documents` -/

/-- `re.sub(r"[^a-zA-Z0-9]", "_", ·)` applied character by character. -/
def sanitizeChar (c : Char) : Char := if c.isAlphanum then c else '_'

/-- Python `s.replace(pat, "")`: remove every non-overlapping occurrence of
`pat`, scanning left to right.  `fuel` makes the recursion structural;
`l.length` steps always suffice. -/
def removeSubF (pat : List Char) : Nat → List Char → List Char
  | 0, l => l
  | _ + 1, [] => []
  | fuel + 1, c :: rest =>
      if pat ≠ [] ∧ pat.isPrefixOf (c :: rest) then
        removeSubF pat fuel (rest.drop (pat.length - 1))
      else c :: removeSubF pat fuel rest

/-- Python `s.replace(pat, "")`. -/
def removeSub (pat l : List Char) : List Char := removeSubF pat l.length l

/-- `url.replace("https://", "").replace("http://", "")`. -/
def stripSchemes (l : List Char) : List Char :=
  removeSub ("http://".data) (removeSub ("https://".data) l)

/-- Python `s.strip("_")`. -/
def stripUnderscores (l : List Char) : List Char :=
  ((l.dropWhile (fun c => c == '_')).reverse.dropWhile (fun c => c == '_')).reverse

/-- `url_to_slug` from `indexer/chunker.py`. -/
def urlToSlug (url : List Char) : List Char :=
  stripUnderscores ((stripSchemes url).map sanitizeChar)

/-- Decimal digit character. -/
def digitChar (d : Nat) : Char := Char.ofNat (48 + d)

/-- Decimal representation of a natural number (`str(i)` in Python),
most-significant digit first.  `fuel` makes the recursion structural;
`n + 1` steps always suffice. -/
def decReprF : Nat → Nat → List Char
  | 0, _ => []
  | fuel + 1, n =>
      if n < 10 then [digitChar n] else decReprF fuel (n / 10) ++ [digitChar (n % 10)]

/-- Decimal representation of a natural number, `str(i)`. -/
def decRepr (n : Nat) : List Char := decReprF (n + 1) n

/-- Python `enumerate`, starting at index `i`. -/
def withIdx (i : Nat) : List α → List (Nat × α)
  | [] => []
  | a :: rest => (i, a) :: withIdx (i + 1) rest

/-- An extracted document (`{url, title, category, text}`). -/
structure Doc where
  url : List Char
  title : List Char
  category : List Char
  text : List Char
deriving DecidableEq

/-- One chunk record emitted by `chunk_documents` (metadata flattened). -/
structure ChunkRec where
  id : List Char
  text : List Char
  url : List Char
  title : List Char
  category : List Char
  chunkIndex : Nat
deriving DecidableEq

/-- The per-document body of the loop in `chunk_documents`. -/
def chunkOneDoc (doc : Doc) : List ChunkRec :=
  let slug := urlToSlug doc.url
  (withIdx 0 (chunkTextDefault doc.text doc.title)).map (fun p =>
    { id := slug ++ '_' :: decRepr p.1
      text := p.2
      url := doc.url
      title := doc.title
      category := doc.category
      chunkIndex := p.1 })

/-- `chunk_documents` from `indexer/chunker.py` (the aggregate count printing
is I/O and not modelled). -/
def chunkDocuments (docs : List Doc) : List ChunkRec :=
  docs.flatMap chunkOneDoc

/-! ### Retrieval deduplication and source aggregation (`backend/rag.py`) -/

/-- A retrieved nearest-neighbour hit.  The index-aligned arrays returned by
the vector store are zipped into one record per hit and the metadata fields
are flattened; `distance` (a float in the source) is only ever copied by the
code under study, so it is carried as an opaque integer score. -/
structure Hit where
  id : List Char
  text : List Char
  url : List Char
  title : List Char
  category : List Char
  distance : Int
deriving DecidableEq

/-- The deduplication loop of `RAGPipeline.retrieve` (lines 50-70): the
per-url running count of the Python `defaultdict` equals the number of
already-accepted hits with that url. -/
def dedupAux (topK : Nat) (acc : List Hit) : List Hit → List Hit
  | [] => acc
  | h :: rest =>
      if 2 ≤ (acc.filter (fun a => decide (a.url = h.url))).length then dedupAux topK acc rest
      else
        if topK ≤ acc.length + 1 then acc ++ [h]
        else dedupAux topK (acc ++ [h]) rest

/-- Deduplicate a ranked hit list: at most two hits per url, stop as soon as
`top_k` hits have been accepted. -/
def dedupHits (topK : Nat) (hits : List Hit) : List Hit := dedupAux topK [] hits

/-- A citation record (`backend/models.py` `Source`). -/
structure Source where
  url : List Char
  title : List Char
  category : List Char
  snippet : List Char
  quotes : List (List Char)
deriving DecidableEq

/-- Recover the raw quoted text of a hit: strip the leading `title + "\n\n"`
prefix when present, otherwise use the full text (`RAGPipeline.query`,
lines 146-150). -/
def recoverRaw (h : Hit) : List Char :=
  if (h.title ++ nl2).isPrefixOf h.text then h.text.drop (h.title.length + 2) else h.text

/-- The quote stored for a hit: `raw.strip()`. -/
def quoteOf (h : Hit) : List Char := pyStrip (recoverRaw h)

/-- The snippet computed for a first-seen url: `raw[:200].strip()`, plus an
ellipsis when `len(raw) > 200`. -/
def snippetOf (h : Hit) : List Char :=
  let raw := recoverRaw h
  pyStrip (raw.take 200) ++ (if 200 < raw.length then "...".data else [])

/-- Append a quote to the (unique) source with the given url.  In the Python
code `seen_urls[url]` stores the index of that source; since urls are distinct
within `sources`, updating the first match is the same update. -/
def addQuote (u q : List Char) : List Source → List Source
  | [] => []
  | s :: rest =>
      if s.url = u then { s with quotes := s.quotes ++ [q] } :: rest
      else s :: addQuote u q rest

/-- The `Source` created when a url is first encountered (`RAGPipeline.query`,
lines 158-168). -/
def mkSource (h : Hit) : Source :=
  { url := h.url, title := h.title, category := h.category,
    snippet := snippetOf h, quotes := [quoteOf h] }

/-- The source-building loop of `RAGPipeline.query` (lines 141-171). -/
def aggAux (acc : List Source) : List Hit → List Source
  | [] => acc
  | h :: rest =>
      if acc.any (fun s => decide (s.url = h.url)) then
        aggAux (addQuote h.url (quoteOf h) acc) rest
      else
        aggAux (acc ++ [mkSource h]) rest

/-- Build the ordered source list from the deduplicated hits. -/
def aggregate (hits : List Hit) : List Source := aggAux [] hits

/-- The distinct elements of a list, each at its first occurrence, skipping
those already in `seen`. -/
def firstSeenFrom (seen : List (List Char)) : List (List Char) → List (List Char)
  | [] => []
  | u :: rest =>
      if u ∈ seen then firstSeenFrom seen rest
      else u :: firstSeenFrom (u :: seen) rest

/-- The distinct elements of a list in first-occurrence order. -/
def firstSeen (l : List (List Char)) : List (List Char) := firstSeenFrom [] l

/-- The hits bearing a given url, in order. -/
def hitsFor (u : List Char) (hits : List Hit) : List Hit :=
  hits.filter (fun h => decide (h.url = u))

/-- The urls of a source list. -/
def urlsOf (l : List Source) : List (List Char) := l.map Source.url

/-! ### Helper lemmas: stripping, joining and sentence splitting -/

theorem pyStrip_length_le (l : List Char) : (pyStrip l).length ≤ l.length := by
  unfold pyStrip
  rw [List.length_reverse]
  calc ((l.dropWhile isPySpace).reverse.dropWhile isPySpace).length
      ≤ (l.dropWhile isPySpace).reverse.length := (List.dropWhile_suffix _).length_le
    _ = (l.dropWhile isPySpace).length := List.length_reverse _
    _ ≤ l.length := (List.dropWhile_suffix _).length_le

theorem pyTakeLastNeg_length_le (n : Nat) (l : List Char) :
    (pyTakeLastNeg n l).length ≤ l.length := by
  unfold pyTakeLastNeg
  split
  · exact le_rfl
  · rw [List.length_drop]; omega

theorem pyDropFrom_length_le (i : Int) (l : List Char) :
    (pyDropFrom i l).length ≤ l.length := by
  unfold pyDropFrom
  split <;> rw [List.length_drop] <;> omega

theorem hardCut_length (cs ov : Nat) (hov : ov < cs) (cur : List Char) :
    (pyDropFrom ((cs : Int) - (ov : Int)) cur).length = cur.length - (cs - ov) := by
  unfold pyDropFrom
  rw [if_pos (by omega : (0:Int) ≤ (cs : Int) - (ov : Int)), Int.toNat_sub, List.length_drop]

theorem wt_cons (s : List Char) (xs : List (List Char)) :
    wt (s :: xs) = s.length + 1 + wt xs := by
  simp [wt]; omega

theorem wt_append (a b : List (List Char)) : wt (a ++ b) = wt a + wt b := by
  simp [wt]; omega

theorem wt_pos (s : List Char) (xs : List (List Char)) : 1 ≤ wt (s :: xs) := by
  simp [wt]; omega

theorem joinSpace_length (xs : List (List Char)) (h : xs ≠ []) :
    (joinSpace xs).length + 1 = wt xs := by
  induction xs with
  | nil => exact absurd rfl h
  | cons s rest ih =>
    cases rest with
    | nil => simp [joinSpace, wt]
    | cons r t =>
      have h1 := ih (by simp : r :: t ≠ [])
      have h2 : joinSpace (s :: r :: t) = s ++ ' ' :: joinSpace (r :: t) := rfl
      rw [h2, wt_cons]
      simp only [List.length_append, List.length_cons]
      omega

theorem sentAux_wt (l : List Char) : ∀ (flag : Bool) (acc : List Char),
    wt (sentAux flag acc l) ≤ acc.length + l.length + 1 := by
  induction l with
  | nil => intro flag acc; cases flag <;> simp [sentAux, wt]
  | cons c rest ih =>
    intro flag acc
    cases flag with
    | true =>
      simp only [sentAux]
      split
      · have := ih true acc; simp only [List.length_cons]; omega
      · have := ih false [c]; simp only [List.length_cons, List.length_nil] at *; omega
    | false =>
      simp only [sentAux]
      split
      · have := ih true []
        rw [wt_cons]
        simp only [List.length_reverse, List.length_cons, List.length_nil] at *
        omega
      · have := ih false (c :: acc); simp only [List.length_cons] at *; omega

theorem sentSplit_wt (l : List Char) : wt (sentSplit l) ≤ l.length + 1 := by
  have := sentAux_wt l false []
  simpa [sentSplit] using this

/-! ### Helper lemmas: the sentence walk -/

theorem walkStep_spec (cs : Nat) :
    ∀ (sents : List (List Char)) (chunk c : List Char) (rem : List (List Char)),
      walkStep cs chunk sents = some (c, rem) →
      rem ≠ [] ∧ c.length + wt rem ≤ chunk.length + wt sents ∧
        ∃ pre, sents = pre ++ rem ∧ (chunk = [] → pre ≠ []) := by
  intro sents
  induction sents with
  | nil =>
    intro chunk c rem h
    have hn : walkStep cs chunk [] = none := rfl
    rw [hn] at h
    exact Option.noConfusion h
  | cons sent rest ih =>
    intro chunk c rem h
    rw [walkStep] at h
    split at h
    · rename_i hcond
      injection h with h'
      injection h' with h1 h2
      subst h1; subst h2
      refine ⟨by simp, le_rfl, [], by simp, ?_⟩
      intro hc; exact absurd hc hcond.2
    · rename_i hcond
      obtain ⟨hrem, hlen, pre, hpre, hpre_ne⟩ := ih _ _ _ h
      constructor
      · exact hrem
      constructor
      · have hbound : (if chunk = [] then sent else pyStrip (chunk ++ ' ' :: sent)).length ≤
            chunk.length + sent.length + 1 := by
          split
          · omega
          · calc (pyStrip (chunk ++ ' ' :: sent)).length
                ≤ (chunk ++ ' ' :: sent).length := pyStrip_length_le _
              _ = chunk.length + sent.length + 1 := by simp; omega
        rw [wt_cons]
        omega
      · exact ⟨sent :: pre, by rw [hpre]; rfl, fun _ => by simp⟩

theorem walk_progress (cs : Nat) (cur c : List Char) (rem : List (List Char))
    (h : walkStep cs [] (sentSplit cur) = some (c, rem)) :
    (joinSpace rem).length < cur.length ∧ c.length ≤ cur.length := by
  obtain ⟨hrem, hlen, pre, hpre, hpre_ne⟩ := walkStep_spec cs _ _ _ _ h
  have hw : wt (sentSplit cur) ≤ cur.length + 1 := sentSplit_wt cur
  have hsplit : wt (sentSplit cur) = wt pre + wt rem := by rw [hpre, wt_append]
  have hprene : pre ≠ [] := hpre_ne rfl
  have hpre_pos : 1 ≤ wt pre := by
    cases pre with
    | nil => exact absurd rfl hprene
    | cons a b => exact wt_pos a b
  have hrem_pos : 1 ≤ wt rem := by
    cases rem with
    | nil => exact absurd rfl hrem
    | cons a b => exact wt_pos a b
  have hj : (joinSpace rem).length + 1 = wt rem := joinSpace_length rem hrem
  simp only [List.length_nil] at hlen
  constructor <;> omega

/-! ### Helper lemmas: the forced-split loop -/

theorem innerLoop_stop (cs ov n : Nat) (chunks : List (List Char)) (cur : List Char)
    (h : ¬ 3 * cs < 2 * cur.length) : innerLoop cs ov (n + 1) chunks cur = (chunks, cur) := by
  simp only [innerLoop, if_neg h]

theorem innerLoop_walk (cs ov n : Nat) (chunks : List (List Char)) (cur chunk : List Char)
    (remaining : List (List Char)) (h : 3 * cs < 2 * cur.length)
    (hw : walkStep cs [] (sentSplit cur) = some (chunk, remaining)) :
    innerLoop cs ov (n + 1) chunks cur =
      innerLoop cs ov n (chunks ++ [chunk]) (joinSpace remaining) := by
  simp only [innerLoop, if_pos h, hw]

theorem innerLoop_hard (cs ov n : Nat) (chunks : List (List Char)) (cur : List Char)
    (h : 3 * cs < 2 * cur.length) (hw : walkStep cs [] (sentSplit cur) = none) :
    innerLoop cs ov (n + 1) chunks cur =
      innerLoop cs ov n (chunks ++ [cur.take cs]) (pyDropFrom ((cs : Int) - (ov : Int)) cur) := by
  simp only [innerLoop, if_pos h, hw]

theorem innerLoop_sub (cs ov : Nat) : ∀ (fuel : Nat) (chunks : List (List Char)) (cur : List Char),
    (innerLoop cs ov fuel chunks cur).2.length ≤ cur.length ∧
    ∀ c ∈ (innerLoop cs ov fuel chunks cur).1, c ∈ chunks ∨ c.length ≤ cur.length := by
  intro fuel
  induction fuel with
  | zero =>
    intro chunks cur
    exact ⟨le_rfl, fun c hc => Or.inl hc⟩
  | succ n ih =>
    intro chunks cur
    by_cases hcond : 3 * cs < 2 * cur.length
    · rcases hw : walkStep cs [] (sentSplit cur) with _ | ⟨chunk, remaining⟩
      · rw [innerLoop_hard cs ov n chunks cur hcond hw]
        have hdrop : (pyDropFrom ((cs : Int) - (ov : Int)) cur).length ≤ cur.length :=
          pyDropFrom_length_le _ _
        obtain ⟨h1, h2⟩ := ih (chunks ++ [cur.take cs]) (pyDropFrom ((cs : Int) - (ov : Int)) cur)
        refine ⟨h1.trans hdrop, fun c hc => ?_⟩
        rcases h2 c hc with hmem | hlen
        · rcases List.mem_append.mp hmem with hl | hr
          · exact Or.inl hl
          · right
            have : c = cur.take cs := by simpa using hr
            subst this
            rw [List.length_take]
            omega
        · exact Or.inr (hlen.trans hdrop)
      · rw [innerLoop_walk cs ov n chunks cur chunk remaining hcond hw]
        obtain ⟨hjl, hcl⟩ := walk_progress cs cur chunk remaining hw
        obtain ⟨h1, h2⟩ := ih (chunks ++ [chunk]) (joinSpace remaining)
        refine ⟨h1.trans hjl.le, fun c hc => ?_⟩
        rcases h2 c hc with hmem | hlen
        · rcases List.mem_append.mp hmem with hl | hr
          · exact Or.inl hl
          · right
            have : c = chunk := by simpa using hr
            subst this
            exact hcl
        · exact Or.inr (hlen.trans hjl.le)
    · rw [innerLoop_stop cs ov n chunks cur hcond]
      exact ⟨le_rfl, fun c hc => Or.inl hc⟩

theorem innerLoop_stable (cs ov : Nat) (hov : ov < cs) :
    ∀ (n : Nat) (cur : List Char) (chunks : List (List Char)) (f1 f2 : Nat),
      cur.length ≤ n → cur.length < f1 → cur.length < f2 →
      innerLoop cs ov f1 chunks cur = innerLoop cs ov f2 chunks cur := by
  intro n
  induction n with
  | zero =>
    intro cur chunks f1 f2 hn h1 h2
    have hc : ¬ 3 * cs < 2 * cur.length := by omega
    obtain ⟨a, rfl⟩ : ∃ a, f1 = a + 1 := ⟨f1 - 1, by omega⟩
    obtain ⟨b, rfl⟩ : ∃ b, f2 = b + 1 := ⟨f2 - 1, by omega⟩
    rw [innerLoop_stop cs ov a chunks cur hc, innerLoop_stop cs ov b chunks cur hc]
  | succ n ih =>
    intro cur chunks f1 f2 hn h1 h2
    obtain ⟨a, rfl⟩ : ∃ a, f1 = a + 1 := ⟨f1 - 1, by omega⟩
    obtain ⟨b, rfl⟩ : ∃ b, f2 = b + 1 := ⟨f2 - 1, by omega⟩
    by_cases hcond : 3 * cs < 2 * cur.length
    · rcases hw : walkStep cs [] (sentSplit cur) with _ | ⟨chunk, remaining⟩
      · rw [innerLoop_hard cs ov a chunks cur hcond hw,
          innerLoop_hard cs ov b chunks cur hcond hw]
        have hlen : (pyDropFrom ((cs : Int) - (ov : Int)) cur).length =
            cur.length - (cs - ov) := hardCut_length cs ov hov cur
        exact ih _ _ a b (by omega) (by omega) (by omega)
      · rw [innerLoop_walk cs ov a chunks cur chunk remaining hcond hw,
          innerLoop_walk cs ov b chunks cur chunk remaining hcond hw]
        have hjl := (walk_progress cs cur chunk remaining hw).1
        exact ih _ _ a b (by omega) (by omega) (by omega)
    · rw [innerLoop_stop cs ov a chunks cur hcond, innerLoop_stop cs ov b chunks cur hcond]

theorem innerLoop_post (cs ov : Nat) (hov : ov < cs) :
    ∀ (n : Nat) (cur : List Char) (chunks : List (List Char)) (fuel : Nat),
      cur.length ≤ n → cur.length < fuel →
      2 * (innerLoop cs ov fuel chunks cur).2.length ≤ 3 * cs := by
  intro n
  induction n with
  | zero =>
    intro cur chunks fuel hn hf
    obtain ⟨a, rfl⟩ : ∃ a, fuel = a + 1 := ⟨fuel - 1, by omega⟩
    have hc : ¬ 3 * cs < 2 * cur.length := by omega
    rw [innerLoop_stop cs ov a chunks cur hc]
    show 2 * cur.length ≤ 3 * cs
    omega
  | succ n ih =>
    intro cur chunks fuel hn hf
    obtain ⟨a, rfl⟩ : ∃ a, fuel = a + 1 := ⟨fuel - 1, by omega⟩
    by_cases hcond : 3 * cs < 2 * cur.length
    · rcases hw : walkStep cs [] (sentSplit cur) with _ | ⟨chunk, remaining⟩
      · rw [innerLoop_hard cs ov a chunks cur hcond hw]
        have hlen : (pyDropFrom ((cs : Int) - (ov : Int)) cur).length =
            cur.length - (cs - ov) := hardCut_length cs ov hov cur
        exact ih _ _ a (by omega) (by omega)
      · rw [innerLoop_walk cs ov a chunks cur chunk remaining hcond hw]
        have hjl := (walk_progress cs cur chunk remaining hw).1
        exact ih _ _ a (by omega) (by omega)
    · rw [innerLoop_stop cs ov a chunks cur hcond]
      show 2 * cur.length ≤ 3 * cs
      omega

theorem innerLoop_acc (cs ov : Nat) : ∀ (fuel : Nat) (chunks : List (List Char)) (cur : List Char),
    innerLoop cs ov fuel chunks cur =
      (chunks ++ (innerLoop cs ov fuel [] cur).1, (innerLoop cs ov fuel [] cur).2) := by
  intro fuel
  induction fuel with
  | zero => intro chunks cur; simp [innerLoop]
  | succ n ih =>
    intro chunks cur
    by_cases hcond : 3 * cs < 2 * cur.length
    · rcases hw : walkStep cs [] (sentSplit cur) with _ | ⟨chunk, remaining⟩
      · rw [innerLoop_hard cs ov n chunks cur hcond hw,
          innerLoop_hard cs ov n [] cur hcond hw,
          ih (chunks ++ [cur.take cs]) (pyDropFrom ((cs : Int) - (ov : Int)) cur),
          ih ([] ++ [cur.take cs]) (pyDropFrom ((cs : Int) - (ov : Int)) cur)]
        simp
      · rw [innerLoop_walk cs ov n chunks cur chunk remaining hcond hw,
          innerLoop_walk cs ov n [] cur chunk remaining hcond hw,
          ih (chunks ++ [chunk]) (joinSpace remaining),
          ih ([] ++ [chunk]) (joinSpace remaining)]
        simp
    · rw [innerLoop_stop cs ov n chunks cur hcond, innerLoop_stop cs ov n [] cur hcond]
      simp

/-! ### Helper lemmas: the paragraph loop -/

theorem overlapSeed_le (ov : Nat) (cur : List Char) :
    (overlapSeed ov cur).length ≤ cur.length := by
  by_cases hlt : ov < cur.length
  · have hrw : overlapSeed ov cur =
        (if 1 < (sentSplit (pyTakeLastNeg ov cur)).length
         then joinSpace ((sentSplit (pyTakeLastNeg ov cur)).drop 1)
         else pyTakeLastNeg ov cur) := by
      simp only [overlapSeed, if_pos hlt]
    rw [hrw]
    have hotle := pyTakeLastNeg_length_le ov cur
    by_cases hgt : 1 < (sentSplit (pyTakeLastNeg ov cur)).length
    · rw [if_pos hgt]
      rcases hss : sentSplit (pyTakeLastNeg ov cur) with _ | ⟨s0, t⟩
      · rw [hss] at hgt; simp at hgt
      · rcases t with _ | ⟨r, u⟩
        · rw [hss] at hgt; simp at hgt
        · have hw1 := sentSplit_wt (pyTakeLastNeg ov cur)
          rw [hss] at hw1
          have hj := joinSpace_length (r :: u) (by simp)
          have hc := wt_cons s0 (r :: u)
          simp only [List.drop_succ_cons, List.drop_zero]
          omega
    · rw [if_neg hgt]; exact hotle
  · simp only [overlapSeed, if_neg hlt]
    exact le_rfl

theorem chunkStep_entry (cs ov : Nat) (st : List (List Char) × List Char) (para : List Char) :
    ∃ ch1 cur1, chunkStepPara cs ov st para = innerLoop cs ov (cur1.length + 1) ch1 cur1 ∧
      cur1.length ≤ st.2.length + 2 + para.length ∧
      (ch1 = st.1 ∨ ch1 = st.1 ++ [st.2]) ∧
      (st.2 = [] → ch1 = st.1 ∧ cur1 = para) := by
  by_cases hcond : st.2 ≠ [] ∧ cs < st.2.length + para.length + 2
  · refine ⟨st.1 ++ [st.2], overlapSeed ov st.2 ++ nl2 ++ para, ?_, ?_, Or.inr rfl, ?_⟩
    · unfold chunkStepPara
      rw [if_pos hcond]
    · have := overlapSeed_le ov st.2
      simp only [List.length_append, nl2, List.length_cons, List.length_nil]
      omega
    · intro h; exact absurd h hcond.1
  · refine ⟨st.1, if st.2 = [] then para else pyStrip (st.2 ++ nl2 ++ para), ?_, ?_, Or.inl rfl, ?_⟩
    · unfold chunkStepPara
      rw [if_neg hcond]
    · split
      · omega
      · have := pyStrip_length_le (st.2 ++ nl2 ++ para)
        simp only [List.length_append, nl2, List.length_cons, List.length_nil] at *
        omega
    · intro h; rw [if_pos h]; exact ⟨rfl, rfl⟩

theorem chunkStep_inv_M (cs ov L : Nat) (hov : ov < cs) (para : List Char) (hp : para.length ≤ L)
    (st : List (List Char) × List Char)
    (hch : ∀ c ∈ st.1, 2 * c.length ≤ 3 * cs + 2 * L + 6) (hcur : 2 * st.2.length ≤ 3 * cs) :
    (∀ c ∈ (chunkStepPara cs ov st para).1, 2 * c.length ≤ 3 * cs + 2 * L + 6) ∧
    2 * (chunkStepPara cs ov st para).2.length ≤ 3 * cs := by
  obtain ⟨ch1, cur1, heq, hlen, hcases, _⟩ := chunkStep_entry cs ov st para
  rw [heq]
  constructor
  · intro c hc
    rcases (innerLoop_sub cs ov (cur1.length + 1) ch1 cur1).2 c hc with hmem | hle
    · rcases hcases with h | h
      · subst h; exact hch c hmem
      · subst h
        rcases List.mem_append.mp hmem with h1 | h2
        · exact hch c h1
        · have : c = st.2 := by simpa using h2
          subst this; omega
    · omega
  · exact innerLoop_post cs ov hov cur1.length cur1 ch1 (cur1.length + 1) le_rfl (by omega)

theorem foldl_inv_M (cs ov L : Nat) (hov : ov < cs) :
    ∀ (paras : List (List Char)) (st : List (List Char) × List Char),
      (∀ p ∈ paras, p.length ≤ L) →
      (∀ c ∈ st.1, 2 * c.length ≤ 3 * cs + 2 * L + 6) → 2 * st.2.length ≤ 3 * cs →
      (∀ c ∈ (paras.foldl (chunkStepPara cs ov) st).1, 2 * c.length ≤ 3 * cs + 2 * L + 6) ∧
      2 * (paras.foldl (chunkStepPara cs ov) st).2.length ≤ 3 * cs := by
  intro paras
  induction paras with
  | nil => intro st _ hch hcur; exact ⟨hch, hcur⟩
  | cons p rest ih =>
    intro st hp hch hcur
    have hstep := chunkStep_inv_M cs ov L hov p (hp p (by simp)) st hch hcur
    exact ih (chunkStepPara cs ov st p) (fun q hq => hp q (by simp [hq])) hstep.1 hstep.2

theorem chunkStep_inv_T (cs ov S : Nat) (para : List Char)
    (st : List (List Char) × List Char)
    (hcur : st.2 = [] ∨ st.2.length + 2 ≤ S) (hch : ∀ c ∈ st.1, c.length + 2 ≤ S) :
    ((chunkStepPara cs ov st para).2 = [] ∨
      (chunkStepPara cs ov st para).2.length + 2 ≤ S + para.length + 2) ∧
    (∀ c ∈ (chunkStepPara cs ov st para).1, c.length + 2 ≤ S + para.length + 2) := by
  obtain ⟨ch1, cur1, heq, hlen, hcases, hnil⟩ := chunkStep_entry cs ov st para
  rw [heq]
  have hcur1 : cur1.length ≤ S + para.length := by
    rcases hcur with h | h
    · have := (hnil h).2; subst this; omega
    · omega
  constructor
  · right
    have := (innerLoop_sub cs ov (cur1.length + 1) ch1 cur1).1
    omega
  · intro c hc
    rcases (innerLoop_sub cs ov (cur1.length + 1) ch1 cur1).2 c hc with hmem | hle
    · rcases hcases with h | h
      · subst h; have := hch c hmem; omega
      · subst h
        rcases List.mem_append.mp hmem with h1 | h2
        · have := hch c h1; omega
        · have hc2 : c = st.2 := by simpa using h2
          subst hc2
          rcases hcur with h | h
          · rw [h]; simp only [List.length_nil]; omega
          · omega
    · omega

theorem foldl_inv_T (cs ov : Nat) :
    ∀ (paras : List (List Char)) (st : List (List Char) × List Char) (S : Nat),
      (st.2 = [] ∨ st.2.length + 2 ≤ S) → (∀ c ∈ st.1, c.length + 2 ≤ S) →
      ((paras.foldl (chunkStepPara cs ov) st).2 = [] ∨
        (paras.foldl (chunkStepPara cs ov) st).2.length + 2 ≤ S + gList paras) ∧
      (∀ c ∈ (paras.foldl (chunkStepPara cs ov) st).1, c.length + 2 ≤ S + gList paras) := by
  intro paras
  induction paras with
  | nil =>
    intro st S hcur hch
    simp only [List.foldl_nil, gList]
    constructor
    · rcases hcur with h | h
      · exact Or.inl h
      · exact Or.inr (by omega)
    · intro c hc; have := hch c hc; omega
  | cons p rest ih =>
    intro st S hcur hch
    have hstep := chunkStep_inv_T cs ov S p st hcur hch
    have := ih (chunkStepPara cs ov st p) (S + p.length + 2) hstep.1 hstep.2
    simp only [List.foldl_cons, gList]
    constructor
    · rcases this.1 with h | h
      · exact Or.inl h
      · exact Or.inr (by omega)
    · intro c hc; have := this.2 c hc; omega

theorem paraSplit_g (l : List Char) : gList (paraSplit l) = l.length + 2 := by
  induction l using paraSplit.induct with
  | case1 => simp [paraSplit, gList]
  | case2 rest ih =>
    have : paraSplit ('\n' :: '\n' :: rest) = [] :: paraSplit rest := rfl
    rw [this]
    simp only [gList, List.length_nil, List.length_cons]
    omega
  | case3 c rest hne hsplit ih =>
    rw [hsplit] at ih
    simp [gList] at ih
  | case4 c rest hne p ps hsplit ih =>
    have hrw : paraSplit (c :: rest) = (c :: p) :: ps := by
      rw [paraSplit.eq_3]
      · rw [hsplit]
      · intro r hc hr; exact hne r hc hr
    rw [hrw]
    rw [hsplit] at ih
    simp only [gList, List.length_cons] at *
    omega

theorem gList_map_strip_le (ps : List (List Char)) :
    gList (ps.map pyStrip) ≤ gList ps := by
  induction ps with
  | nil => simp [gList]
  | cons p rest ih =>
    simp only [List.map_cons, gList]
    have := pyStrip_length_le p
    omega

theorem gList_filter_le (q : List Char → Bool) (ps : List (List Char)) :
    gList (ps.filter q) ≤ gList ps := by
  induction ps with
  | nil => simp [gList]
  | cons p rest ih =>
    by_cases hq : q p
    · rw [List.filter_cons_of_pos hq]
      simp only [gList]; omega
    · rw [List.filter_cons_of_neg hq]
      simp only [gList]; omega

theorem paragraphsOf_g (text : List Char) : gList (paragraphsOf text) ≤ text.length + 2 := by
  calc gList (paragraphsOf text)
      ≤ gList ((paraSplit text).map pyStrip) := gList_filter_le _ _
    _ ≤ gList (paraSplit text) := gList_map_strip_le _
    _ = text.length + 2 := paraSplit_g text

theorem foldr_max_le (l : List Nat) : ∀ x ∈ l, x ≤ l.foldr max 0 := by
  induction l with
  | nil => intro x hx; simp at hx
  | cons a rest ih =>
    intro x hx
    rcases List.mem_cons.mp hx with h | h
    · subst h; simp [List.foldr_cons, le_max_iff]
    · have := ih x h
      simp only [List.foldr_cons, le_max_iff]
      right; exact this

theorem le_maxParaLen (text : List Char) : ∀ p ∈ paragraphsOf text, p.length ≤ maxParaLen text := by
  intro p hp
  exact foldr_max_le _ _ (List.mem_map.mpr ⟨p, hp, rfl⟩)

theorem chunkBodiesPre_bound_M (text : List Char) (cs ov : Nat) (hov : ov < cs) :
    ∀ c ∈ chunkBodiesPre text cs ov, 2 * c.length ≤ 3 * cs + 2 * maxParaLen text + 6 := by
  intro c hc
  have hfold := foldl_inv_M cs ov (maxParaLen text) hov (paragraphsOf text) ([], [])
    (le_maxParaLen text) (by intro x hx; simp at hx) (by simp)
  simp only [chunkBodiesPre] at hc
  split at hc
  · exact hfold.1 c hc
  · rcases List.mem_append.mp hc with h1 | h2
    · exact hfold.1 c h1
    · have : c = ((paragraphsOf text).foldl (chunkStepPara cs ov) ([], [])).2 := by simpa using h2
      subst this
      omega

theorem chunkBodiesPre_bound_T (text : List Char) (cs ov : Nat) :
    ∀ c ∈ chunkBodiesPre text cs ov, c.length ≤ text.length := by
  intro c hc
  have hfold := foldl_inv_T cs ov (paragraphsOf text) ([], []) 0
    (Or.inl rfl) (by intro x hx; simp at hx)
  have hg := paragraphsOf_g text
  simp only [chunkBodiesPre] at hc
  split at hc
  · have := hfold.2 c hc; omega
  · rcases List.mem_append.mp hc with h1 | h2
    · have := hfold.2 c h1; omega
    · have hceq : c = ((paragraphsOf text).foldl (chunkStepPara cs ov) ([], [])).2 := by
        simpa using h2
      rename_i hne
      rcases hfold.1 with h | h
      · exact absurd h hne
      · subst hceq; omega

theorem mem_chunkText (text title : List Char) (cs ov mcs : Nat) (c : List Char)
    (h : c ∈ chunkText text title cs ov mcs) :
    ∃ a ∈ chunkBodiesPre text cs ov, c = title ++ nl2 ++ pyStrip a ∧ mcs ≤ (pyStrip a).length := by
  rcases List.mem_filterMap.mp h with ⟨a, ha, hfa⟩
  simp only at hfa
  split at hfa
  · rename_i hge
    injection hfa with hfa
    exact ⟨a, ha, hfa.symm, hge⟩
  · exact Option.noConfusion hfa

/-! ### Claims about the Segmenter (C1, C2, C4, C7, C8) -/

/-- Claim C1, counterexample.  The claim says every chunk body is strictly
shorter than `1.5 * chunk_size`, including chunks emitted by the sentence-walk
branch.  With `chunk_size = 10`, `overlap = 3`, `min_chunk_size = 1`, the text
`"AAAAAAAAAAAAAAAA. B?"` is one paragraph of length 20, so the forced-split
loop runs; the sentence walk puts the whole 17-character first sentence into
the candidate chunk (the size test is skipped while the candidate is empty)
and emits it, and 2 * 17 = 34 ≥ 30 = 3 * chunk_size: the emitted body is not
strictly below the bound (it even exceeds it). -/
theorem claim_C1_counterexample :
    chunkText "AAAAAAAAAAAAAAAA. B?".data "T".data 10 3 1 =
      ["T\n\nAAAAAAAAAAAAAAAA.".data, "T\n\nB?".data]
    ∧ ¬ (2 * "AAAAAAAAAAAAAAAA.".data.length < 3 * 10) := by
  constructor
  · decide
  · decide

/-- Claim C1, amended: the `1.5 * chunk_size` bound does not hold for chunks
emitted by the sentence-walk branch when a single sentence is longer than
`chunk_size`.  What holds (for `overlap < chunk_size`) is that every chunk
body is bounded by `1.5 * chunk_size` plus the longest paragraph length (up
to the separator slack): `2 * |body| ≤ 3 * chunk_size + 2 * maxParaLen + 6`.
Finalized-at-paragraph-boundary chunks and the final flush do satisfy
`2 * |body| ≤ 3 * chunk_size`, and hard-cut chunks have length exactly
`chunk_size`. -/
theorem claim_C1_amended : ∀ (text title : List Char) (cs ov mcs : Nat), ov < cs →
    ∀ c ∈ chunkText text title cs ov mcs,
      ∃ b, c = title ++ nl2 ++ b ∧ 2 * b.length ≤ 3 * cs + 2 * maxParaLen text + 6 := by
  intro text title cs ov mcs hov c hc
  obtain ⟨a, ha, rfl, hge⟩ := mem_chunkText text title cs ov mcs c hc
  refine ⟨pyStrip a, rfl, ?_⟩
  have h1 := chunkBodiesPre_bound_M text cs ov hov a ha
  have h2 := pyStrip_length_le a
  omega

/-- Claim C1, witness for the amended bound at a concrete input. -/
theorem claim_C1_amended_witness :
    ∃ b, "T\n\nHello.".data = "T".data ++ nl2 ++ b ∧
      2 * b.length ≤ 3 * 10 + 2 * maxParaLen "Hello.".data + 6 :=
  claim_C1_amended "Hello.".data "T".data 10 3 1 (by decide)
    "T\n\nHello.".data (by decide)

/-- Claim C2: termination of the forced-split loop.  For `overlap <
chunk_size` the loop's result is independent of the fuel once the fuel
exceeds the buffer length (so `current.length + 1` iterations always
complete the loop, which is exactly how `chunkText` instantiates it), and
the hard character cut at `chunk_size` followed by resuming at
`chunk_size - overlap` shortens the buffer by exactly `chunk_size - overlap`
characters. -/
theorem claim_C2 : ∀ (cs ov fuel : Nat) (chunks : List (List Char)) (cur : List Char),
    ov < cs → cur.length < fuel →
    innerLoop cs ov fuel chunks cur = innerLoop cs ov (cur.length + 1) chunks cur
    ∧ (cs ≤ cur.length →
        (pyDropFrom ((cs : Int) - (ov : Int)) cur).length + (cs - ov) = cur.length) := by
  intro cs ov fuel chunks cur hov hf
  constructor
  · exact innerLoop_stable cs ov hov cur.length cur chunks fuel (cur.length + 1)
      le_rfl hf (by omega)
  · intro hcs
    rw [hardCut_length cs ov hov cur]
    omega

/-- Claim C2, witness at a concrete buffer. -/
theorem claim_C2_witness :
    innerLoop 8 3 20 [] "aaaaaaaa".data = innerLoop 8 3 ("aaaaaaaa".data.length + 1) [] "aaaaaaaa".data
    ∧ (8 ≤ "aaaaaaaa".data.length →
        (pyDropFrom ((8 : Int) - (3 : Int)) "aaaaaaaa".data).length + (8 - 3) = "aaaaaaaa".data.length) :=
  claim_C2 8 3 20 [] "aaaaaaaa".data (by decide) (by decide)

/-- Claim C4, counterexample.  The claim says concatenating the chunk bodies
(accounting for the overlap) reconstructs the original text with no gaps.
With `chunk_size = 10`, `overlap = 2`, `min_chunk_size = 7`, the text
`"aaaaaaaa.\n\nzz"` produces a second buffer `"a.\n\nzz"` of length 6, which
is dropped by the `min_chunk_size` filter: the only emitted chunk contains no
`'z'`, so the content `"zz"` is lost and no reconstruction is possible. -/
theorem claim_C4_counterexample :
    chunkText "aaaaaaaa.\n\nzz".data "T".data 10 2 7 = ["T\n\naaaaaaaa.".data]
    ∧ 'z' ∈ "aaaaaaaa.\n\nzz".data ∧ 'z' ∉ "T\n\naaaaaaaa.".data := by
  refine ⟨by decide, by decide, by decide⟩

/-- Claim C4, amended: full-text reconstruction fails because chunks shorter
than `min_chunk_size` are dropped entirely (and boundary whitespace is
normalized).  The no-gap property that does hold is the one of the forced
hard cut: the emitted chunk is `current[:chunk_size]` and the resumed buffer
`current[chunk_size - overlap:]` overlaps it by exactly `overlap` characters,
so the cut chunk plus the non-overlapping part of the resumed buffer
reassemble the buffer exactly. -/
theorem claim_C4_amended : ∀ (cs ov : Nat) (cur : List Char), ov ≤ cs → cs ≤ cur.length →
    cur.take cs ++ (pyDropFrom ((cs : Int) - (ov : Int)) cur).drop ov = cur := by
  intro cs ov cur h1 h2
  have hd : pyDropFrom ((cs : Int) - (ov : Int)) cur = cur.drop (cs - ov) := by
    unfold pyDropFrom
    rw [if_pos (by omega : (0 : Int) ≤ (cs : Int) - (ov : Int)), Int.toNat_sub]
  rw [hd, List.drop_drop]
  have he : cs - ov + ov = cs := by omega
  rw [he]
  exact List.take_append_drop cs cur

/-- Claim C4, witness for the amended no-gap property at a concrete buffer. -/
theorem claim_C4_witness :
    "xxxxxxxxxxyy".data.take 10 ++
      (pyDropFrom ((10 : Int) - (3 : Int)) "xxxxxxxxxxyy".data).drop 3 = "xxxxxxxxxxyy".data :=
  claim_C4_amended 10 3 "xxxxxxxxxxyy".data (by decide) (by decide)

/-- Claim C7, counterexample.  The claim says the overlap carry-over rule
(last `overlap` characters, sentence-split, first sentence dropped when more
than one) applies to every finalized buffer regardless of its length relative
to `overlap`.  With `chunk_size = 10`, `overlap = 50`, the buffer `"a. b"`
(length 4 ≤ 50) is finalized before `"cccccccc"`; the rule would drop the
first sentence `"a."` and seed `"b"`, but the code carries the whole buffer
unmodified: the second chunk is `"a. b\n\ncccccccc"`, not `"b\n\ncccccccc"`. -/
theorem claim_C7_counterexample :
    chunkText "a. b\n\ncccccccc".data "T".data 10 50 1 =
      ["T\n\na. b".data, "T\n\na. b\n\ncccccccc".data]
    ∧ "T\n\na. b\n\ncccccccc".data ≠ "T\n\nb\n\ncccccccc".data := by
  refine ⟨by decide, by decide⟩

/-- Claim C7, amended: when a buffer is finalized at a paragraph boundary the
new buffer is `seed ++ "\n\n" ++ para` (followed by the forced-split loop),
where the carry-over seed obeys the sentence-dropping rule only when the
finalized buffer is strictly longer than `overlap` — in that case (for
`overlap > 0`) it depends only on the last `overlap` characters of the buffer
— and otherwise the entire buffer is carried over unmodified, with no
sentence processing. -/
theorem claim_C7_amended : ∀ (cs ov : Nat) (chunks : List (List Char)) (cur para : List Char),
    cur ≠ [] → cs < cur.length + para.length + 2 →
    chunkStepPara cs ov (chunks, cur) para =
      (chunks ++ [cur] ++
        (innerLoop cs ov ((overlapSeed ov cur ++ nl2 ++ para).length + 1) []
          (overlapSeed ov cur ++ nl2 ++ para)).1,
       (innerLoop cs ov ((overlapSeed ov cur ++ nl2 ++ para).length + 1) []
          (overlapSeed ov cur ++ nl2 ++ para)).2)
    ∧ (cur.length ≤ ov → overlapSeed ov cur = cur)
    ∧ (∀ c1 c2 : List Char, 0 < ov → ov < c1.length → ov < c2.length →
        pyTakeLastNeg ov c1 = pyTakeLastNeg ov c2 → overlapSeed ov c1 = overlapSeed ov c2) := by
  intro cs ov chunks cur para hne hbig
  refine ⟨?_, ?_, ?_⟩
  · have hstep : chunkStepPara cs ov (chunks, cur) para =
        innerLoop cs ov ((overlapSeed ov cur ++ nl2 ++ para).length + 1)
          (chunks ++ [cur]) (overlapSeed ov cur ++ nl2 ++ para) := by
      unfold chunkStepPara
      rw [if_pos ⟨hne, hbig⟩]
    rw [hstep, innerLoop_acc]
  · intro hle
    simp only [overlapSeed, if_neg (by omega : ¬ ov < cur.length)]
  · intro c1 c2 hov h1 h2 heq
    simp only [overlapSeed, if_pos h1, if_pos h2, heq]

/-- Claim C7, witness for the amended carry-over characterization. -/
theorem claim_C7_witness :
    chunkStepPara 10 3 ([], "Hi. Yo.".data) "xy".data =
      ([] ++ ["Hi. Yo.".data] ++
        (innerLoop 10 3 ((overlapSeed 3 "Hi. Yo.".data ++ nl2 ++ "xy".data).length + 1) []
          (overlapSeed 3 "Hi. Yo.".data ++ nl2 ++ "xy".data)).1,
       (innerLoop 10 3 ((overlapSeed 3 "Hi. Yo.".data ++ nl2 ++ "xy".data).length + 1) []
          (overlapSeed 3 "Hi. Yo.".data ++ nl2 ++ "xy".data)).2) :=
  (claim_C7_amended 10 3 [] "Hi. Yo.".data "xy".data (by decide) (by decide)).1

/-- Claim C8: `chunk_text` on empty text yields zero chunks; a document
shorter than `min_chunk_size` yields zero chunks; every retained chunk body
(title prefix excluded) has length at least `min_chunk_size`; and a buffer
of length exactly `1.5 * chunk_size` is not force-split (the loop's
comparison is a strict `>`). -/
theorem claim_C8 :
    (∀ (title : List Char) (cs ov mcs : Nat), chunkText [] title cs ov mcs = [])
    ∧ (∀ (text title : List Char) (cs ov mcs : Nat), text.length < mcs →
        chunkText text title cs ov mcs = [])
    ∧ (∀ (text title : List Char) (cs ov mcs : Nat), ∀ c ∈ chunkText text title cs ov mcs,
        ∃ b, c = title ++ nl2 ++ b ∧ mcs ≤ b.length)
    ∧ (∀ (cs ov fuel : Nat) (chunks : List (List Char)) (cur : List Char),
        2 * cur.length = 3 * cs → innerLoop cs ov fuel chunks cur = (chunks, cur)) := by
  refine ⟨fun _ _ _ _ => rfl, ?_, ?_, ?_⟩
  · intro text title cs ov mcs hshort
    unfold chunkText
    rw [List.filterMap_eq_nil_iff]
    intro a ha
    have h1 := chunkBodiesPre_bound_T text cs ov a ha
    have h2 := pyStrip_length_le a
    simp only
    rw [if_neg (by omega)]
  · intro text title cs ov mcs c hc
    obtain ⟨a, _, rfl, hge⟩ := mem_chunkText text title cs ov mcs c hc
    exact ⟨pyStrip a, rfl, hge⟩
  · intro cs ov fuel chunks cur heq
    cases fuel with
    | zero => rfl
    | succ n => exact innerLoop_stop cs ov n chunks cur (by omega)

/-- Claim C8, witness: the four parts at concrete inputs. -/
theorem claim_C8_witness :
    chunkText [] "T".data 800 200 100 = []
    ∧ chunkText "hi".data "T".data 800 200 100 = []
    ∧ (∃ b, "T\n\nHello.".data = "T".data ++ nl2 ++ b ∧ 1 ≤ b.length)
    ∧ innerLoop 2 1 5 [] "abc".data = ([], "abc".data) :=
  ⟨claim_C8.1 "T".data 800 200 100,
   claim_C8.2.1 "hi".data "T".data 800 200 100 (by decide),
   claim_C8.2.2.1 "Hello.".data "T".data 10 3 1 "T\n\nHello.".data (by decide),
   claim_C8.2.2.2 2 1 5 [] "abc".data (by decide)⟩

/-! ### Helper lemmas: slugs and chunk ids -/

theorem mem_removeSubF (pat : List Char) :
    ∀ (fuel : Nat) (l : List Char) (c : Char), c ∈ removeSubF pat fuel l → c ∈ l := by
  intro fuel
  induction fuel with
  | zero => intro l c h; exact h
  | succ f ih =>
    intro l c h
    cases l with
    | nil => simp [removeSubF] at h
    | cons a rest =>
      simp only [removeSubF] at h
      split at h
      · exact List.mem_cons_of_mem a (List.mem_of_mem_drop (ih _ c h))
      · rcases List.mem_cons.mp h with h1 | h1
        · exact h1 ▸ List.mem_cons_self a rest
        · exact List.mem_cons_of_mem a (ih _ c h1)

theorem mem_removeSub (pat l : List Char) (c : Char) (h : c ∈ removeSub pat l) : c ∈ l :=
  mem_removeSubF pat l.length l c h

theorem mem_stripUnderscores (l : List Char) (c : Char) (h : c ∈ stripUnderscores l) : c ∈ l := by
  unfold stripUnderscores at h
  rw [List.mem_reverse] at h
  have h2 := (List.dropWhile_sublist _).mem h
  rw [List.mem_reverse] at h2
  exact (List.dropWhile_sublist _).mem h2

theorem urlToSlug_chars (url : List Char) (c : Char) (h : c ∈ urlToSlug url) :
    c.isAlphanum = true ∨ c = '_' := by
  unfold urlToSlug at h
  have h1 : c ∈ (stripSchemes url).map sanitizeChar := mem_stripUnderscores _ c h
  rcases List.mem_map.mp h1 with ⟨a, _, rfl⟩
  unfold sanitizeChar
  split
  · left; assumption
  · right; rfl

theorem head?_dropWhile (p : Char → Bool) :
    ∀ (l : List Char) (a : Char), (l.dropWhile p).head? = some a → p a = false := by
  intro l
  induction l with
  | nil => intro a h; exact Option.noConfusion h
  | cons c rest ih =>
    intro a h
    by_cases hp : p c
    · rw [List.dropWhile_cons_of_pos hp] at h
      exact ih a h
    · rw [List.dropWhile_cons_of_neg hp] at h
      injection h with h
      subst h
      exact Bool.eq_false_iff.mpr hp

theorem getLast?_of_suffix (l1 l2 : List Char) (h : l1 <:+ l2) (hne : l1 ≠ []) :
    l2.getLast? = l1.getLast? := by
  obtain ⟨t, rfl⟩ := h
  rw [List.getLast?_append]
  rw [List.getLast?_eq_getLast l1 hne]
  rfl

theorem stripUnderscores_head (l : List Char) : ∀ t, stripUnderscores l ≠ '_' :: t := by
  intro t h
  have hh : (stripUnderscores l).head? = some '_' := by rw [h]; rfl
  unfold stripUnderscores at hh
  rw [List.head?_reverse] at hh
  have hne : ((l.dropWhile (fun c => c == '_')).reverse.dropWhile (fun c => c == '_')) ≠ [] := by
    intro h0
    rw [h0] at hh
    exact Option.noConfusion hh
  have hsuf := List.dropWhile_suffix (l := (l.dropWhile (fun c => c == '_')).reverse)
    (fun c => c == '_')
  have hlast := getLast?_of_suffix _ _ hsuf hne
  rw [← hlast, List.getLast?_reverse] at hh
  have := head?_dropWhile _ l '_' hh
  simp at this

theorem stripUnderscores_last (l : List Char) : ∀ s, stripUnderscores l ≠ s ++ ['_'] := by
  intro s h
  have hh : (stripUnderscores l).getLast? = some '_' := by rw [h, List.getLast?_concat]
  unfold stripUnderscores at hh
  rw [List.getLast?_reverse] at hh
  have := head?_dropWhile _ _ '_' hh
  simp at this

theorem decReprF_stable (n : Nat) :
    ∀ f1 f2, n < f1 → n < f2 → decReprF f1 n = decReprF f2 n := by
  induction n using Nat.strong_induction_on with
  | _ n ih =>
    intro f1 f2 h1 h2
    obtain ⟨a, rfl⟩ : ∃ a, f1 = a + 1 := ⟨f1 - 1, by omega⟩
    obtain ⟨b, rfl⟩ : ∃ b, f2 = b + 1 := ⟨f2 - 1, by omega⟩
    simp only [decReprF]
    by_cases h10 : n < 10
    · rw [if_pos h10, if_pos h10]
    · rw [if_neg h10, if_neg h10]
      have hdiv : n / 10 < n := Nat.div_lt_self (by omega) (by omega)
      rw [ih (n / 10) hdiv a b (by omega) (by omega)]

theorem decRepr_eq (n : Nat) :
    decRepr n = if n < 10 then [digitChar n]
      else decRepr (n / 10) ++ [digitChar (n % 10)] := by
  have h1 : decRepr n = if n < 10 then [digitChar n]
      else decReprF n (n / 10) ++ [digitChar (n % 10)] := by
    unfold decRepr
    simp only [decReprF]
  rw [h1]
  by_cases h : n < 10
  · rw [if_pos h, if_pos h]
  · rw [if_neg h, if_neg h]
    have hdiv : n / 10 < n := Nat.div_lt_self (by omega) (by omega)
    rw [decReprF_stable (n / 10) n (n / 10 + 1) hdiv (by omega)]
    rfl

theorem decRepr_ne_nil (n : Nat) : decRepr n ≠ [] := by
  rw [decRepr_eq]
  split
  · simp
  · simp

theorem digitChar_inj : ∀ d1 < 10, ∀ d2 < 10, digitChar d1 = digitChar d2 → d1 = d2 := by
  decide

theorem decRepr_inj : ∀ n m : Nat, decRepr n = decRepr m → n = m := by
  intro n
  induction n using Nat.strong_induction_on with
  | _ n ih =>
    intro m h
    rw [decRepr_eq n, decRepr_eq m] at h
    by_cases hn : n < 10 <;> by_cases hm : m < 10
    · rw [if_pos hn, if_pos hm] at h
      injection h with h
      exact digitChar_inj n hn m hm h
    · rw [if_pos hn, if_neg hm] at h
      have hlen := congrArg List.length h
      have hpos : 0 < (decRepr (m / 10)).length :=
        List.length_pos.mpr (decRepr_ne_nil (m / 10))
      simp only [List.length_cons, List.length_nil, List.length_append] at hlen
      omega
    · rw [if_neg hn, if_pos hm] at h
      have hlen := congrArg List.length h
      have hpos : 0 < (decRepr (n / 10)).length :=
        List.length_pos.mpr (decRepr_ne_nil (n / 10))
      simp only [List.length_cons, List.length_nil, List.length_append] at hlen
      omega
    · rw [if_neg hn, if_neg hm] at h
      have hrev := congrArg List.reverse h
      simp only [List.reverse_append, List.reverse_cons, List.reverse_nil, List.nil_append,
        List.cons_append] at hrev
      injection hrev with hd htl
      have hmod : n % 10 = m % 10 :=
        digitChar_inj (n % 10) (Nat.mod_lt _ (by omega)) (m % 10) (Nat.mod_lt _ (by omega)) hd
      have hdivs : decRepr (n / 10) = decRepr (m / 10) := List.reverse_injective htl
      have hdiv : n / 10 < n := Nat.div_lt_self (by omega) (by omega)
      have := ih (n / 10) hdiv (m / 10) hdivs
      omega

theorem withIdx_fst {α : Type} : ∀ (l : List α) (s : Nat),
    (withIdx s l).map Prod.fst = List.range' s l.length := by
  intro l
  induction l with
  | nil => intro s; rfl
  | cons a rest ih =>
    intro s
    simp only [withIdx, List.map_cons, List.length_cons, List.range'_succ]
    rw [ih (s + 1)]

theorem chunkOneDoc_id_eq (doc : Doc) :
    ∀ r ∈ chunkOneDoc doc, r.id = urlToSlug doc.url ++ '_' :: decRepr r.chunkIndex := by
  intro r hr
  unfold chunkOneDoc at hr
  rcases List.mem_map.mp hr with ⟨p, _, rfl⟩
  rfl

theorem chunkOneDoc_ids_nodup (doc : Doc) : ((chunkOneDoc doc).map ChunkRec.id).Nodup := by
  have hmap : (chunkOneDoc doc).map ChunkRec.id =
      (withIdx 0 (chunkTextDefault doc.text doc.title)).map
        (fun p => urlToSlug doc.url ++ '_' :: decRepr p.1) := by
    unfold chunkOneDoc
    rw [List.map_map]
    rfl
  rw [hmap]
  have hmap2 : (withIdx 0 (chunkTextDefault doc.text doc.title)).map
      (fun p => urlToSlug doc.url ++ '_' :: decRepr p.1) =
      ((withIdx 0 (chunkTextDefault doc.text doc.title)).map Prod.fst).map
        (fun i => urlToSlug doc.url ++ '_' :: decRepr i) := by
    rw [List.map_map]
    rfl
  rw [hmap2, withIdx_fst]
  apply List.Nodup.map
  · intro i j hij
    have h2 := List.append_cancel_left hij
    injection h2 with _ h3
    exact decRepr_inj i j h3
  · exact List.nodup_range' 0 _

/-! ### Claim C9: slugs and chunk ids -/

/-- Claim C9, counterexample.  The claim says `url_to_slug` replaces every
non-alphanumeric *run* with a *single* separator.  The code replaces each
non-alphanumeric character by one underscore, so the run `"--"` becomes
`"__"`, not `"_"`. -/
theorem claim_C9_counterexample :
    urlToSlug "https://a--b".data = "a__b".data ∧ "a__b".data ≠ "a_b".data := by
  refine ⟨by decide, by decide⟩

/-- Claim C9, amended: `url_to_slug` strips the scheme (removing every
occurrence of `"https://"` and then `"http://"`), replaces every
non-alphanumeric *character* with one separator (so a run of k
non-alphanumerics becomes k separators), and trims leading and trailing
separators — hence the slug contains only alphanumerics and `'_'` and neither
starts nor ends with `'_'`.  Chunk ids equal `slug + "_" + chunk_index` and
are pairwise distinct within a document; re-chunking is deterministic since
`chunk_documents` is a pure function of its input. -/
theorem claim_C9_amended : ∀ (url : List Char) (doc : Doc),
    (∀ c ∈ urlToSlug url, c.isAlphanum = true ∨ c = '_')
    ∧ (∀ t, urlToSlug url ≠ '_' :: t)
    ∧ (∀ s, urlToSlug url ≠ s ++ ['_'])
    ∧ ((chunkOneDoc doc).map ChunkRec.id).Nodup
    ∧ (∀ r ∈ chunkOneDoc doc, r.id = urlToSlug doc.url ++ '_' :: decRepr r.chunkIndex) := by
  intro url doc
  exact ⟨urlToSlug_chars url, stripUnderscores_head _, stripUnderscores_last _,
    chunkOneDoc_ids_nodup doc, chunkOneDoc_id_eq doc⟩

/-- Claim C9, witness: the slug characterization and id shape at a concrete
url and document (the document text is 120 characters so one chunk survives
the default `min_chunk_size = 100`). -/
theorem claim_C9_witness :
    ('y'.isAlphanum = true ∨ 'y' = '_')
    ∧ ((chunkOneDoc
          { url := "https://x.y".data, title := "Ti".data, category := "c".data,
            text := List.replicate 120 'a' }).map ChunkRec.id).Nodup
    ∧ ({ id := "x_y_0".data, text := "Ti\n\n".data ++ List.replicate 120 'a',
           url := "https://x.y".data, title := "Ti".data, category := "c".data,
           chunkIndex := 0 } : ChunkRec).id =
        urlToSlug "https://x.y".data ++ '_' :: decRepr 0 :=
  ⟨(claim_C9_amended "https://x.y".data
      { url := "https://x.y".data, title := "Ti".data, category := "c".data,
        text := List.replicate 120 'a' }).1 'y' (by decide),
   (claim_C9_amended "https://x.y".data
      { url := "https://x.y".data, title := "Ti".data, category := "c".data,
        text := List.replicate 120 'a' }).2.2.2.1,
   (claim_C9_amended "https://x.y".data
      { url := "https://x.y".data, title := "Ti".data, category := "c".data,
        text := List.replicate 120 'a' }).2.2.2.2
     { id := "x_y_0".data, text := "Ti\n\n".data ++ List.replicate 120 'a',
       url := "https://x.y".data, title := "Ti".data, category := "c".data,
       chunkIndex := 0 } (by decide)⟩

/-! ### Helper lemmas: retrieval deduplication -/

theorem dedupAux_sublist (topK : Nat) : ∀ (l acc : List Hit),
    ∃ s, dedupAux topK acc l = acc ++ s ∧ s.Sublist l := by
  intro l
  induction l with
  | nil => intro acc; exact ⟨[], by simp [dedupAux], List.nil_sublist []⟩
  | cons h rest ih =>
    intro acc
    simp only [dedupAux]
    split
    · obtain ⟨s, heq, hsub⟩ := ih acc
      exact ⟨s, heq, hsub.cons h⟩
    · split
      · exact ⟨[h], rfl, (List.nil_sublist rest).cons₂ h⟩
      · obtain ⟨s, heq, hsub⟩ := ih (acc ++ [h])
        refine ⟨h :: s, ?_, hsub.cons₂ h⟩
        rw [heq, List.append_assoc]
        rfl

theorem dedupAux_cap (topK : Nat) (u : List Char) : ∀ (l acc : List Hit),
    (acc.filter (fun a => decide (a.url = u))).length ≤ 2 →
    ((dedupAux topK acc l).filter (fun a => decide (a.url = u))).length ≤ 2 := by
  intro l
  induction l with
  | nil => intro acc hacc; exact hacc
  | cons h rest ih =>
    intro acc hacc
    simp only [dedupAux]
    split
    · exact ih acc hacc
    · rename_i hcnt
      have hnew : ((acc ++ [h]).filter (fun a => decide (a.url = u))).length ≤ 2 := by
        rw [List.filter_append, List.length_append]
        by_cases hu : h.url = u
        · have hc2 : (acc.filter (fun a => decide (a.url = h.url))).length ≤ 1 := by omega
          rw [← hu]
          have : ([h].filter (fun a => decide (a.url = h.url))).length ≤ 1 := by
            simp [List.filter]
          omega
        · have : ([h].filter (fun a => decide (a.url = u))).length = 0 := by
            simp [List.filter, hu]
          omega
      split
      · exact hnew
      · exact ih (acc ++ [h]) hnew

theorem dedupAux_len (topK : Nat) : ∀ (l acc : List Hit),
    acc.length < topK → (dedupAux topK acc l).length ≤ topK := by
  intro l
  induction l with
  | nil => intro acc hacc; exact Nat.le_of_lt hacc
  | cons h rest ih =>
    intro acc hacc
    simp only [dedupAux]
    split
    · exact ih acc hacc
    · split
      · rename_i hbrk
        rw [List.length_append]
        simp only [List.length_cons, List.length_nil]
        omega
      · rename_i hcont
        refine ih (acc ++ [h]) ?_
        rw [List.length_append]
        simp only [List.length_cons, List.length_nil]
        omega

theorem dedupAux_stop (topK : Nat) : ∀ (l1 l2 acc : List Hit),
    acc.length < topK → (dedupAux topK acc l1).length = topK →
    dedupAux topK acc (l1 ++ l2) = dedupAux topK acc l1 := by
  intro l1
  induction l1 with
  | nil =>
    intro l2 acc hacc hlen
    simp only [dedupAux] at hlen
    omega
  | cons h rest ih =>
    intro l2 acc hacc hlen
    rw [List.cons_append]
    simp only [dedupAux] at hlen ⊢
    by_cases hskip : 2 ≤ (List.filter (fun a => decide (a.url = h.url)) acc).length
    · rw [if_pos hskip] at hlen
      rw [if_pos hskip, if_pos hskip]
      exact ih l2 acc hacc hlen
    · rw [if_neg hskip] at hlen
      rw [if_neg hskip, if_neg hskip]
      by_cases hbrk : topK ≤ acc.length + 1
      · rw [if_pos hbrk] at hlen
        rw [if_pos hbrk, if_pos hbrk]
      · rw [if_neg hbrk] at hlen
        rw [if_neg hbrk, if_neg hbrk]
        refine ih l2 (acc ++ [h]) ?_ hlen
        rw [List.length_append]
        simp only [List.length_cons, List.length_nil]
        omega

/-! ### Claim C3: retrieval deduplication -/

/-- Claim C3, counterexample.  The claim quantifies over every `top_k`; for
`top_k = 0` and a nonempty hit list the loop appends the first accepted hit
before checking the stop condition, so one hit is returned, exceeding
`top_k`. -/
theorem claim_C3_counterexample :
    dedupHits 0
      [{ id := "i".data, text := "t".data, url := "u".data, title := "T".data,
         category := "c".data, distance := 0 }] =
      [{ id := "i".data, text := "t".data, url := "u".data, title := "T".data,
         category := "c".data, distance := 0 }]
    ∧ ¬ ((dedupHits 0
      [{ id := "i".data, text := "t".data, url := "u".data, title := "T".data,
         category := "c".data, distance := 0 }]).length ≤ 0) := by
  refine ⟨by decide, by decide⟩

/-- Claim C3, amended: for `top_k ≥ 1` (as holds in `retrieve`, where a
`top_k` of zero fetches zero hits) the deduplication returns an
order-preserving subsequence of its input (never re-sorted, records
unchanged), with at most 2 hits per url and at most `top_k` hits in total;
once `top_k` hits have been accepted the remaining hits are never examined
(appending further hits cannot change the result), and when fewer qualify,
fewer are returned. -/
theorem claim_C3_amended : ∀ (topK : Nat) (hits : List Hit), 1 ≤ topK →
    (dedupHits topK hits).Sublist hits
    ∧ (∀ u : List Char,
        ((dedupHits topK hits).filter (fun a => decide (a.url = u))).length ≤ 2)
    ∧ (dedupHits topK hits).length ≤ topK
    ∧ (∀ more : List Hit, (dedupHits topK hits).length = topK →
        dedupHits topK (hits ++ more) = dedupHits topK hits) := by
  intro topK hits htop
  refine ⟨?_, ?_, ?_, ?_⟩
  · obtain ⟨s, heq, hsub⟩ := dedupAux_sublist topK hits []
    unfold dedupHits
    rw [heq]
    simpa using hsub
  · intro u
    exact dedupAux_cap topK u hits [] (by simp)
  · refine dedupAux_len topK hits [] ?_
    simp only [List.length_nil]
    omega
  · intro more hlen
    refine dedupAux_stop topK hits more [] ?_ hlen
    simp only [List.length_nil]
    omega

/-- Claim C3, witness: the amended properties at a concrete one-hit list with
`top_k = 1`. -/
theorem claim_C3_witness :
    (dedupHits 1
      [{ id := "i".data, text := "t".data, url := "u".data, title := "T".data, category := "c".data, distance := 0 }]).Sublist
      [{ id := "i".data, text := "t".data, url := "u".data, title := "T".data, category := "c".data, distance := 0 }]
    ∧ ((dedupHits 1
      [{ id := "i".data, text := "t".data, url := "u".data, title := "T".data, category := "c".data, distance := 0 }]).filter (fun a => decide (a.url = "u".data))).length ≤ 2
    ∧ (dedupHits 1
      [{ id := "i".data, text := "t".data, url := "u".data, title := "T".data, category := "c".data, distance := 0 }]).length ≤ 1
    ∧ dedupHits 1
        ([{ id := "i".data, text := "t".data, url := "u".data, title := "T".data, category := "c".data, distance := 0 }] ++
         [{ id := "i".data, text := "t".data, url := "u".data, title := "T".data, category := "c".data, distance := 0 }]) =
      dedupHits 1
        [{ id := "i".data, text := "t".data, url := "u".data, title := "T".data, category := "c".data, distance := 0 }] :=
  ⟨(claim_C3_amended 1
      [{ id := "i".data, text := "t".data, url := "u".data, title := "T".data, category := "c".data, distance := 0 }] (by decide)).1,
   (claim_C3_amended 1
      [{ id := "i".data, text := "t".data, url := "u".data, title := "T".data, category := "c".data, distance := 0 }] (by decide)).2.1 "u".data,
   (claim_C3_amended 1
      [{ id := "i".data, text := "t".data, url := "u".data, title := "T".data, category := "c".data, distance := 0 }] (by decide)).2.2.1,
   (claim_C3_amended 1
      [{ id := "i".data, text := "t".data, url := "u".data, title := "T".data, category := "c".data, distance := 0 }] (by decide)).2.2.2
      [{ id := "i".data, text := "t".data, url := "u".data, title := "T".data, category := "c".data, distance := 0 }] (by decide)⟩

/-! ### Helper lemmas: source aggregation -/

theorem addQuote_urls (u q : List Char) : ∀ l, urlsOf (addQuote u q l) = urlsOf l := by
  intro l
  induction l with
  | nil => rfl
  | cons s rest ih =>
    simp only [addQuote]
    split
    · rfl
    · simp only [urlsOf, List.map_cons] at *
      rw [ih]

theorem addQuote_mem_ne (u q : List Char) (s : Source) :
    ∀ l, s ∈ l → s.url ≠ u → s ∈ addQuote u q l := by
  intro l
  induction l with
  | nil => intro h; exact absurd h (List.not_mem_nil s)
  | cons t rest ih =>
    intro hmem hne
    simp only [addQuote]
    split
    · rcases List.mem_cons.mp hmem with h | h
      · rename_i htu
        subst h
        exact absurd htu hne
      · exact List.mem_cons_of_mem _ h
    · rcases List.mem_cons.mp hmem with h | h
      · subst h; exact List.mem_cons_self s _
      · exact List.mem_cons_of_mem _ (ih h hne)

theorem addQuote_mem_eq (u q : List Char) (s : Source) :
    ∀ l, (urlsOf l).Nodup → s ∈ l → s.url = u →
      { s with quotes := s.quotes ++ [q] } ∈ addQuote u q l := by
  intro l
  induction l with
  | nil => intro _ h; exact absurd h (List.not_mem_nil s)
  | cons t rest ih =>
    intro hnd hmem heq
    simp only [addQuote]
    split
    · rename_i htu
      rcases List.mem_cons.mp hmem with h | h
      · subst h; exact List.mem_cons_self _ _
      · exfalso
        simp only [urlsOf, List.map_cons, List.nodup_cons] at hnd
        exact hnd.1 (List.mem_map.mpr ⟨s, h, by rw [heq, htu]⟩)
    · rename_i htu
      rcases List.mem_cons.mp hmem with h | h
      · subst h; exact absurd heq htu
      · simp only [urlsOf, List.map_cons, List.nodup_cons] at hnd
        exact List.mem_cons_of_mem _ (ih hnd.2 h heq)

theorem firstSeenFrom_congr : ∀ (l s1 s2 : List (List Char)),
    (∀ x, x ∈ s1 ↔ x ∈ s2) → firstSeenFrom s1 l = firstSeenFrom s2 l := by
  intro l
  induction l with
  | nil => intro s1 s2 _; rfl
  | cons u rest ih =>
    intro s1 s2 hiff
    simp only [firstSeenFrom]
    by_cases hu : u ∈ s1
    · rw [if_pos hu, if_pos ((hiff u).mp hu)]
      exact ih s1 s2 hiff
    · rw [if_neg hu, if_neg (fun h => hu ((hiff u).mpr h))]
      rw [ih (u :: s1) (u :: s2) (by intro x; simp [hiff x])]

theorem firstSeenFrom_nodup : ∀ (l seen : List (List Char)),
    (firstSeenFrom seen l).Nodup ∧ ∀ u ∈ firstSeenFrom seen l, u ∉ seen := by
  intro l
  induction l with
  | nil => intro seen; exact ⟨List.nodup_nil, by intro u hu; exact absurd hu (List.not_mem_nil u)⟩
  | cons v rest ih =>
    intro seen
    simp only [firstSeenFrom]
    split
    · exact ih seen
    · rename_i hv
      obtain ⟨hnd, hmem⟩ := ih (v :: seen)
      constructor
      · rw [List.nodup_cons]
        exact ⟨fun h => (hmem v h) (List.mem_cons_self v seen), hnd⟩
      · intro u hu
        rcases List.mem_cons.mp hu with h | h
        · subst h; exact hv
        · intro hus
          exact (hmem u h) (List.mem_cons_of_mem v hus)

theorem mem_firstSeenFrom : ∀ (l seen : List (List Char)) (x : List Char),
    x ∈ l → x ∉ seen → x ∈ firstSeenFrom seen l := by
  intro l
  induction l with
  | nil => intro seen x h; exact absurd h (List.not_mem_nil x)
  | cons v rest ih =>
    intro seen x hx hns
    simp only [firstSeenFrom]
    split
    · rename_i hv
      rcases List.mem_cons.mp hx with h | h
      · subst h; exact absurd hv hns
      · exact ih seen x h hns
    · rcases List.mem_cons.mp hx with h | h
      · subst h; exact List.mem_cons_self x _
      · by_cases hxv : x = v
        · subst hxv; exact List.mem_cons_self x _
        · exact List.mem_cons_of_mem v (ih (v :: seen) x h (by simp [hxv, hns]))

theorem firstSeenFrom_subset : ∀ (l seen : List (List Char)) (x : List Char),
    x ∈ firstSeenFrom seen l → x ∈ l := by
  intro l
  induction l with
  | nil => intro seen x h; exact absurd h (List.not_mem_nil x)
  | cons v rest ih =>
    intro seen x hx
    simp only [firstSeenFrom] at hx
    split at hx
    · exact List.mem_cons_of_mem v (ih seen x hx)
    · rcases List.mem_cons.mp hx with h | h
      · subst h; exact List.mem_cons_self x _
      · exact List.mem_cons_of_mem v (ih (v :: seen) x h)

theorem hitsFor_cons_pos (u : List Char) (h : Hit) (rest : List Hit) (he : h.url = u) :
    hitsFor u (h :: rest) = h :: hitsFor u rest := by
  simp [hitsFor, List.filter_cons, he]

theorem hitsFor_cons_neg (u : List Char) (h : Hit) (rest : List Hit) (he : ¬ h.url = u) :
    hitsFor u (h :: rest) = hitsFor u rest := by
  simp [hitsFor, List.filter_cons, he]

theorem any_url_iff (acc : List Source) (u : List Char) :
    acc.any (fun s => decide (s.url = u)) = true ↔ u ∈ urlsOf acc := by
  rw [List.any_eq_true]
  constructor
  · rintro ⟨s, hs, hdec⟩
    exact List.mem_map.mpr ⟨s, hs, of_decide_eq_true hdec⟩
  · intro h
    rcases List.mem_map.mp h with ⟨s, hs, he⟩
    exact ⟨s, hs, decide_eq_true he⟩

theorem aggAux_spec : ∀ (hits : List Hit) (acc : List Source), (urlsOf acc).Nodup →
    (urlsOf (aggAux acc hits) = urlsOf acc ++ firstSeenFrom (urlsOf acc) (hits.map Hit.url))
    ∧ ∀ s ∈ aggAux acc hits,
        (∀ s0 ∈ acc, s0.url = s.url →
          s.title = s0.title ∧ s.category = s0.category ∧ s.snippet = s0.snippet ∧
          s.quotes = s0.quotes ++ (hitsFor s.url hits).map quoteOf)
        ∧ (s.url ∉ urlsOf acc →
          ∃ h, hits.find? (fun x => decide (x.url = s.url)) = some h ∧
            s.url = h.url ∧ s.title = h.title ∧ s.category = h.category ∧
            s.snippet = snippetOf h ∧
            s.quotes = (hitsFor s.url hits).map quoteOf) := by
  intro hits
  induction hits with
  | nil =>
    intro acc hnd
    constructor
    · simp [aggAux, firstSeenFrom]
    · intro s hs
      constructor
      · intro s0 hs0 heq
        have hseq : s0 = s := List.inj_on_of_nodup_map hnd hs0 hs heq
        subst hseq
        simp [hitsFor]
      · intro hnot
        exact absurd (List.mem_map.mpr ⟨s, hs, rfl⟩) hnot
  | cons h rest ih =>
    intro acc hnd
    by_cases hmem : h.url ∈ urlsOf acc
    · have hany : acc.any (fun s => decide (s.url = h.url)) = true :=
        (any_url_iff acc h.url).mpr hmem
      have hagg : aggAux acc (h :: rest) = aggAux (addQuote h.url (quoteOf h) acc) rest := by
        simp only [aggAux]
        rw [if_pos hany]
      have hurls2 : urlsOf (addQuote h.url (quoteOf h) acc) = urlsOf acc :=
        addQuote_urls _ _ acc
      have hnd2 : (urlsOf (addQuote h.url (quoteOf h) acc)).Nodup := by
        rw [hurls2]; exact hnd
      obtain ⟨iha, ihc⟩ := ih (addQuote h.url (quoteOf h) acc) hnd2
      constructor
      · rw [hagg, iha, hurls2]
        simp only [List.map_cons, firstSeenFrom]
        rw [if_pos hmem]
      · intro s hs
        rw [hagg] at hs
        obtain ⟨P1, P2⟩ := ihc s hs
        constructor
        · intro s0 hs0 heq0
          by_cases hs0h : s0.url = h.url
          · have hmm := addQuote_mem_eq h.url (quoteOf h) s0 acc hnd hs0 hs0h
            obtain ⟨ht, hcg, hsn, hq⟩ := P1 _ hmm heq0
            refine ⟨ht, hcg, hsn, ?_⟩
            rw [hq, hitsFor_cons_pos s.url h rest (by rw [← hs0h, heq0])]
            simp only [List.map_cons]
            rw [List.append_assoc]
            rfl
          · have hmm := addQuote_mem_ne h.url (quoteOf h) s0 acc hs0 hs0h
            obtain ⟨ht, hcg, hsn, hq⟩ := P1 s0 hmm heq0
            refine ⟨ht, hcg, hsn, ?_⟩
            rw [hq, hitsFor_cons_neg s.url h rest (fun hc => hs0h (by rw [heq0, ← hc]))]
        · intro hnot
          have hnot2 : s.url ∉ urlsOf (addQuote h.url (quoteOf h) acc) := by
            rw [hurls2]; exact hnot
          obtain ⟨h2, hfind, hu, ht, hcg, hsn, hq⟩ := P2 hnot2
          have hne : ¬ (h.url = s.url) := fun hc => hnot (hc ▸ hmem)
          refine ⟨h2, ?_, hu, ht, hcg, hsn, ?_⟩
          · rw [List.find?_cons_of_neg _ (by simpa using hne)]
            exact hfind
          · rw [hitsFor_cons_neg s.url h rest hne]
            exact hq
    · have hany : ¬ (acc.any (fun s => decide (s.url = h.url)) = true) :=
        fun hc => hmem ((any_url_iff acc h.url).mp hc)
      have hagg : aggAux acc (h :: rest) = aggAux (acc ++ [mkSource h]) rest := by
        simp only [aggAux]
        rw [if_neg hany]
      have hurls2 : urlsOf (acc ++ [mkSource h]) = urlsOf acc ++ [h.url] := by
        simp [urlsOf, mkSource]
      have hnd2 : (urlsOf (acc ++ [mkSource h])).Nodup := by
        rw [hurls2, List.nodup_append]
        refine ⟨hnd, List.nodup_singleton _, ?_⟩
        intro x hx hx2
        simp only [List.mem_singleton] at hx2
        subst hx2
        exact hmem hx
      obtain ⟨iha, ihc⟩ := ih (acc ++ [mkSource h]) hnd2
      constructor
      · rw [hagg, iha, hurls2]
        simp only [List.map_cons, firstSeenFrom]
        rw [if_neg hmem]
        rw [firstSeenFrom_congr (rest.map Hit.url) (urlsOf acc ++ [h.url]) (h.url :: urlsOf acc)
          (by intro x; simp [or_comm])]
        rw [List.append_assoc]
        rfl
      · intro s hs
        rw [hagg] at hs
        obtain ⟨P1, P2⟩ := ihc s hs
        constructor
        · intro s0 hs0 heq0
          obtain ⟨ht, hcg, hsn, hq⟩ := P1 s0 (List.mem_append.mpr (Or.inl hs0)) heq0
          have hne : ¬ (h.url = s.url) := by
            intro hc
            exact hmem (by rw [hc, ← heq0]; exact List.mem_map.mpr ⟨s0, hs0, rfl⟩)
          exact ⟨ht, hcg, hsn, by rw [hq, hitsFor_cons_neg s.url h rest hne]⟩
        · intro hnot
          by_cases hsh : s.url = h.url
          · have hmm : mkSource h ∈ acc ++ [mkSource h] :=
              List.mem_append.mpr (Or.inr (List.mem_cons_self _ _))
            obtain ⟨ht, hcg, hsn, hq⟩ := P1 (mkSource h) hmm hsh.symm
            refine ⟨h, ?_, hsh, ht, hcg, hsn, ?_⟩
            · rw [List.find?_cons_of_pos _ (by simp [hsh])]
            · rw [hq, hitsFor_cons_pos s.url h rest hsh.symm]
              simp only [List.map_cons]
              rfl
          · have hnot2 : s.url ∉ urlsOf (acc ++ [mkSource h]) := by
              rw [hurls2]
              intro hc
              rcases List.mem_append.mp hc with hc1 | hc2
              · exact hnot hc1
              · simp only [List.mem_singleton] at hc2
                exact hsh hc2
            obtain ⟨h2, hfind, hu, ht, hcg, hsn, hq⟩ := P2 hnot2
            refine ⟨h2, ?_, hu, ht, hcg, hsn, ?_⟩
            · rw [List.find?_cons_of_neg _ (by simpa using fun hc => hsh (Eq.symm hc))]
              exact hfind
            · rw [hitsFor_cons_neg s.url h rest (fun hc => hsh (Eq.symm hc))]
              exact hq

theorem filter_partition_length (p : Hit → Bool) : ∀ (l : List Hit),
    (l.filter p).length + (l.filter (fun a => ! p a)).length = l.length := by
  intro l
  induction l with
  | nil => rfl
  | cons a rest ih =>
    by_cases hp : p a
    · rw [List.filter_cons_of_pos hp, List.filter_cons_of_neg (by simp [hp])]
      simp only [List.length_cons]
      omega
    · rw [List.filter_cons_of_neg hp, List.filter_cons_of_pos (by simp [hp])]
      simp only [List.length_cons]
      omega

theorem sum_hitsFor : ∀ (us : List (List Char)) (hits : List Hit),
    us.Nodup → (∀ h ∈ hits, h.url ∈ us) →
    (us.map (fun u => (hitsFor u hits).length)).sum = hits.length := by
  intro us
  induction us with
  | nil =>
    intro hits _ hcov
    have hnil : hits = [] :=
      List.eq_nil_iff_forall_not_mem.mpr (fun h hh => absurd (hcov h hh) (List.not_mem_nil _))
    subst hnil
    rfl
  | cons u us2 ih =>
    intro hits hnd hcov
    rw [List.nodup_cons] at hnd
    have hcong : us2.map (fun u2 => (hitsFor u2 hits).length) =
        us2.map (fun u2 => (hitsFor u2 (hits.filter (fun a => ! decide (a.url = u)))).length) := by
      apply List.map_congr_left
      intro u2 hu2
      have hneq : u2 ≠ u := fun hc => hnd.1 (hc ▸ hu2)
      unfold hitsFor
      rw [List.filter_filter]
      congr 1
      apply List.filter_congr
      intro a _
      by_cases ha : a.url = u2
      · have : ¬ (a.url = u) := fun hc => hneq (by rw [← ha, hc])
        simp [ha, this, hneq]
      · simp [ha]
    rw [List.map_cons, List.sum_cons, hcong,
      ih (hits.filter (fun a => ! decide (a.url = u))) hnd.2 ?_]
    · have := filter_partition_length (fun a => decide (a.url = u)) hits
      unfold hitsFor
      omega
    · intro h hh
      rw [List.mem_filter] at hh
      have hne : ¬ (h.url = u) := by
        have := hh.2
        simp at this
        exact this
      rcases List.mem_cons.mp (hcov h hh.1) with hc | hc
      · exact absurd hc hne
      · exact hc

/-! ### Claims about the SourceAggregator (C5, C6, C10) -/

/-- Claim C5: aggregation produces at most one `Source` per distinct url,
ordered by first occurrence of each url in the input; every source's quotes
are exactly the quotes of the hits bearing its url, in encounter order (so a
repeated url appends to the existing source), and the snippet comes from the
first hit with that url (never recomputed for repeats). -/
theorem claim_C5 : ∀ (hits : List Hit),
    (aggregate hits).map Source.url = firstSeen (hits.map Hit.url)
    ∧ ((aggregate hits).map Source.url).Nodup
    ∧ ∀ s ∈ aggregate hits,
        s.quotes = (hitsFor s.url hits).map quoteOf
        ∧ ∃ h, hits.find? (fun x => decide (x.url = s.url)) = some h ∧
            s.snippet = snippetOf h := by
  intro hits
  obtain ⟨ha, hc⟩ := aggAux_spec hits [] (by simp [urlsOf])
  have ha2 : (aggregate hits).map Source.url = firstSeen (hits.map Hit.url) := by
    have : urlsOf ([] : List Source) = [] := rfl
    rw [show (aggregate hits).map Source.url = urlsOf (aggregate hits) from rfl]
    rw [show aggregate hits = aggAux [] hits from rfl, ha, this]
    rfl
  refine ⟨ha2, ?_, ?_⟩
  · rw [ha2]
    exact (firstSeenFrom_nodup (hits.map Hit.url) []).1
  · intro s hs
    obtain ⟨_, P2⟩ := hc s hs
    obtain ⟨h, hfind, _, _, _, hsn, hq⟩ := P2 (by simp [urlsOf])
    exact ⟨hq, h, hfind, hsn⟩

/-- Claim C5, witness at a concrete single hit. -/
theorem claim_C5_witness :
    (aggregate [{ id := "i".data, text := "t".data, url := "u".data, title := "T".data, category := "c".data, distance := 0 }]).map Source.url =
      firstSeen ([{ id := "i".data, text := "t".data, url := "u".data, title := "T".data, category := "c".data, distance := 0 }].map Hit.url)
    ∧ ((mkSource { id := "i".data, text := "t".data, url := "u".data, title := "T".data, category := "c".data, distance := 0 }).quotes =
        (hitsFor (mkSource { id := "i".data, text := "t".data, url := "u".data, title := "T".data, category := "c".data, distance := 0 }).url
          [{ id := "i".data, text := "t".data, url := "u".data, title := "T".data, category := "c".data, distance := 0 }]).map quoteOf
       ∧ ∃ h, [{ id := "i".data, text := "t".data, url := "u".data, title := "T".data, category := "c".data, distance := 0 }].find?
            (fun x => decide (x.url = (mkSource { id := "i".data, text := "t".data, url := "u".data, title := "T".data, category := "c".data, distance := 0 }).url)) = some h ∧
          (mkSource { id := "i".data, text := "t".data, url := "u".data, title := "T".data, category := "c".data, distance := 0 }).snippet = snippetOf h) :=
  ⟨(claim_C5 [{ id := "i".data, text := "t".data, url := "u".data, title := "T".data, category := "c".data, distance := 0 }]).1,
   (claim_C5 [{ id := "i".data, text := "t".data, url := "u".data, title := "T".data, category := "c".data, distance := 0 }]).2.2
     (mkSource { id := "i".data, text := "t".data, url := "u".data, title := "T".data, category := "c".data, distance := 0 }) (by decide)⟩

/-- Claim C10: every source's quotes list is nonempty, each hit contributes
exactly one quote (the quote counts over all sources sum to the number of
hits), and url, title, category and snippet of each source come from the
first hit bearing that url. -/
theorem claim_C10 : ∀ (hits : List Hit),
    (∀ s ∈ aggregate hits, s.quotes ≠ [])
    ∧ ((aggregate hits).map (fun s => s.quotes.length)).sum = hits.length
    ∧ (∀ s ∈ aggregate hits,
        ∃ h, hits.find? (fun x => decide (x.url = s.url)) = some h ∧
          s.url = h.url ∧ s.title = h.title ∧ s.category = h.category ∧
          s.snippet = snippetOf h) := by
  intro hits
  obtain ⟨ha, hc⟩ := aggAux_spec hits [] (by simp [urlsOf])
  have hurls : (aggregate hits).map Source.url = firstSeen (hits.map Hit.url) := by
    rw [show (aggregate hits).map Source.url = urlsOf (aggregate hits) from rfl]
    rw [show aggregate hits = aggAux [] hits from rfl, ha]
    rfl
  have hP2 : ∀ s ∈ aggregate hits,
      ∃ h, hits.find? (fun x => decide (x.url = s.url)) = some h ∧
        s.url = h.url ∧ s.title = h.title ∧ s.category = h.category ∧
        s.snippet = snippetOf h ∧ s.quotes = (hitsFor s.url hits).map quoteOf := by
    intro s hs
    obtain ⟨_, P2⟩ := hc s hs
    exact P2 (by simp [urlsOf])
  refine ⟨?_, ?_, ?_⟩
  · intro s hs
    obtain ⟨h, hfind, hu, _, _, _, hq⟩ := hP2 s hs
    have hpred := List.find?_some hfind
    have hmem2 : h ∈ hitsFor s.url hits :=
      List.mem_filter.mpr ⟨List.mem_of_find?_eq_some hfind, hpred⟩
    rw [hq]
    exact List.ne_nil_of_mem (List.mem_map.mpr ⟨h, hmem2, rfl⟩)
  · have hcong : (aggregate hits).map (fun s => s.quotes.length) =
        (aggregate hits).map (fun s => (hitsFor s.url hits).length) := by
      apply List.map_congr_left
      intro s hs
      obtain ⟨h, _, _, _, _, _, hq⟩ := hP2 s hs
      rw [hq, List.length_map]
    rw [hcong]
    have hmm : (aggregate hits).map (fun s => (hitsFor s.url hits).length) =
        ((aggregate hits).map Source.url).map (fun u => (hitsFor u hits).length) := by
      rw [List.map_map]
      rfl
    rw [hmm, hurls]
    apply sum_hitsFor
    · exact (firstSeenFrom_nodup (hits.map Hit.url) []).1
    · intro h hh
      exact mem_firstSeenFrom (hits.map Hit.url) [] h.url
        (List.mem_map.mpr ⟨h, hh, rfl⟩) (List.not_mem_nil _)
  · intro s hs
    obtain ⟨h, hfind, hu, ht, hcg, hsn, _⟩ := hP2 s hs
    exact ⟨h, hfind, hu, ht, hcg, hsn⟩

/-- Claim C10, witness at a concrete single hit. -/
theorem claim_C10_witness :
    (mkSource { id := "i".data, text := "t".data, url := "u".data, title := "T".data, category := "c".data, distance := 0 }).quotes ≠ []
    ∧ ((aggregate [{ id := "i".data, text := "t".data, url := "u".data, title := "T".data, category := "c".data, distance := 0 }]).map
        (fun s => s.quotes.length)).sum =
      ([{ id := "i".data, text := "t".data, url := "u".data, title := "T".data, category := "c".data, distance := 0 }] : List Hit).length :=
  ⟨(claim_C10 [{ id := "i".data, text := "t".data, url := "u".data, title := "T".data, category := "c".data, distance := 0 }]).1
     (mkSource { id := "i".data, text := "t".data, url := "u".data, title := "T".data, category := "c".data, distance := 0 }) (by decide),
   (claim_C10 [{ id := "i".data, text := "t".data, url := "u".data, title := "T".data, category := "c".data, distance := 0 }]).2.1⟩

/-- Claim C6, counterexample.  The claim says the snippet is the first 200
characters of the recovered text (plus ellipsis iff longer than 200) and that
the recovered quote is the prefix-stripped text unmodified.  The code strips
whitespace: for a 250-character recovered body ending its 200th character
with a space, `raw[:200].strip()` is 199 characters, not 200, and the stored
quote is `raw.strip()`, not `raw`. -/
theorem claim_C6_counterexample :
    (aggregate
      [{ id := "i".data,
         text := "T\n\n".data ++ (List.replicate 199 'a' ++ ' ' :: List.replicate 49 'b' ++ [' ']),
         url := "u".data, title := "T".data, category := "c".data,
         distance := 0 }]).map Source.snippet =
      [List.replicate 199 'a' ++ "...".data]
    ∧ List.replicate 199 'a' ++ "...".data ≠
        (List.replicate 199 'a' ++ ' ' :: List.replicate 49 'b' ++ [' ']).take 200 ++ "...".data
    ∧ (aggregate
      [{ id := "i".data,
         text := "T\n\n".data ++ (List.replicate 199 'a' ++ ' ' :: List.replicate 49 'b' ++ [' ']),
         url := "u".data, title := "T".data, category := "c".data,
         distance := 0 }]).map Source.quotes =
      [[List.replicate 199 'a' ++ ' ' :: List.replicate 49 'b']]
    ∧ List.replicate 199 'a' ++ ' ' :: List.replicate 49 'b' ≠
        List.replicate 199 'a' ++ ' ' :: List.replicate 49 'b' ++ [' '] := by
  refine ⟨by decide, by decide, by decide, by decide⟩

/-- Claim C6, amended: the recovered text is the hit's text with the leading
`title + "\n\n"` prefix stripped when present and the full text otherwise;
the stored quote is the recovered text with surrounding whitespace stripped;
the snippet is the first 200 characters of the recovered text with
surrounding whitespace stripped (hence at most 200 characters), with an
ellipsis appended if and only if the recovered text is longer than 200
characters. -/
theorem claim_C6_amended : ∀ (h : Hit),
    (∀ b, h.text = h.title ++ nl2 ++ b → recoverRaw h = b)
    ∧ (¬ ((h.title ++ nl2).isPrefixOf h.text = true) → recoverRaw h = h.text)
    ∧ (200 < (recoverRaw h).length →
        snippetOf h = pyStrip ((recoverRaw h).take 200) ++ "...".data)
    ∧ ((recoverRaw h).length ≤ 200 → snippetOf h = pyStrip (recoverRaw h))
    ∧ (pyStrip ((recoverRaw h).take 200)).length ≤ 200
    ∧ quoteOf h = pyStrip (recoverRaw h)
    ∧ aggregate [h] = [mkSource h] := by
  intro h
  refine ⟨?_, ?_, ?_, ?_, ?_, rfl, rfl⟩
  · intro b hb
    have hpre : (h.title ++ nl2).isPrefixOf h.text = true := by
      rw [hb]
      exact List.isPrefixOf_iff_prefix.mpr (List.prefix_append _ _)
    unfold recoverRaw
    rw [if_pos hpre, hb]
    have hlen : h.title.length + 2 = (h.title ++ nl2).length := by
      simp [nl2]
    rw [hlen, List.drop_left]
  · intro hnp
    unfold recoverRaw
    rw [if_neg hnp]
  · intro hgt
    simp only [snippetOf]
    rw [if_pos hgt]
  · intro hle
    simp only [snippetOf]
    rw [if_neg (by omega), List.take_of_length_le hle, List.append_nil]
  · refine le_trans (pyStrip_length_le _) ?_
    rw [List.length_take]
    exact min_le_left _ _

/-- Claim C6, witness: the amended recovery and snippet rules at a concrete
hit whose text carries the title prefix and a short body. -/
theorem claim_C6_witness :
    recoverRaw { id := "i".data, text := "T\n\nbody text".data, url := "u".data, title := "T".data, category := "c".data, distance := 0 } = "body text".data
    ∧ snippetOf { id := "i".data, text := "T\n\nbody text".data, url := "u".data, title := "T".data, category := "c".data, distance := 0 } =
        pyStrip (recoverRaw { id := "i".data, text := "T\n\nbody text".data, url := "u".data, title := "T".data, category := "c".data, distance := 0 })
    ∧ aggregate [{ id := "i".data, text := "T\n\nbody text".data, url := "u".data, title := "T".data, category := "c".data, distance := 0 }] =
        [mkSource { id := "i".data, text := "T\n\nbody text".data, url := "u".data, title := "T".data, category := "c".data, distance := 0 }] :=
  ⟨(claim_C6_amended { id := "i".data, text := "T\n\nbody text".data, url := "u".data, title := "T".data, category := "c".data, distance := 0 }).1
     "body text".data (by decide),
   (claim_C6_amended { id := "i".data, text := "T\n\nbody text".data, url := "u".data, title := "T".data, category := "c".data, distance := 0 }).2.2.2.1
     (by decide),
   (claim_C6_amended { id := "i".data, text := "T\n\nbody text".data, url := "u".data, title := "T".data, category := "c".data, distance := 0 }).2.2.2.2.2.2⟩
